import Mathlib

/-!
Shallow embedding of the `graph-algorithms-rs` library
(src/lib.rs, src/bellman_ford.rs, src/dijkstra.rs, src/floyd_warshall.rs).

Machine integers are modelled exactly: `i32` weights/distances as `Int` with the
explicit sentinel `2^31 - 1` (`i32::MAX`), `usize` as `Nat` with the sentinel
`2^64 - 1` (`usize::MAX`).  Additions are exact, matching the Rust source in
every execution that does not overflow (an overflow panics in the original).
Fallible operations return `Except`; the out-of-bounds writes that would panic
in Rust are modelled with `List.set`, which leaves the list unchanged out of
range, and every theorem that needs in-range indices carries that hypothesis
explicitly.
-/

namespace GA

/-- Error type for graph algorithms (src/lib.rs, `GraphError`). -/
inductive GraphError where
  | negativeWeightCycle
  | missingStartNode
deriving DecidableEq, Repr

/-- `i32::MAX`, the "unreachable" sentinel of Bellman-Ford and Floyd-Warshall. -/
def intMax : Int := 2147483647

/-- `usize::MAX`, the "unreachable" sentinel of Dijkstra. -/
def natMax : Nat := 18446744073709551615

/-- Edge in the graph (src/bellman_ford.rs, `Edge`); also reused to state
walk/cycle properties of the other two engines. -/
structure Edge where
  source : Nat
  destination : Nat
  weight : Int
deriving DecidableEq, Repr

/-- Weight of a walk: the sum of its edge weights. -/
def walkWeight (es : List Edge) : Int := (es.map Edge.weight).sum

/-- `IsWalk E u v es`: `es` is a walk from `u` to `v` whose edges all belong
to the edge list `E`. -/
inductive IsWalk (E : List Edge) : Nat → Nat → List Edge → Prop where
  | nil (u : Nat) : IsWalk E u u []
  | cons {v : Nat} (e : Edge) {es : List Edge} (he : e ∈ E)
      (h : IsWalk E e.destination v es) : IsWalk E e.source v (e :: es)

/-- The node sequence visited by a walk starting at `u`. -/
def wNodes (u : Nat) (es : List Edge) : List Nat := u :: es.map Edge.destination

/-- The sources of the edges of a walk (for a closed walk: all of its nodes). -/
def wSources (es : List Edge) : List Nat := es.map Edge.source

/-- Every prefix of the walk (the whole walk included) weighs strictly less
than the `i32::MAX` sentinel, so sentinel arithmetic never interferes. -/
def SafeWalk (es : List Edge) : Prop := ∀ k, walkWeight (es.take k) < intMax

/-- `es` is a negative-weight simple cycle of `E` through the node `x`:
a nonempty closed walk whose edge sources are pairwise distinct. -/
def IsNegCycle (E : List Edge) (x : Nat) (es : List Edge) : Prop :=
  es ≠ [] ∧ IsWalk E x x es ∧ (wSources es).Nodup ∧ walkWeight es < 0

/-- `v` is reachable from `s` along edges of `E`. -/
def Reaches (E : List Edge) (s v : Nat) : Prop := ∃ es, IsWalk E s v es

/-- All lists of length at most `n` whose entries come from `E`
(used to decide the absence of short negative cycles on concrete graphs). -/
def listsUpTo {α : Type} (E : List α) : Nat → List (List α)
  | 0 => [[]]
  | n + 1 => [[]] ++ (E.flatMap fun e => (listsUpTo E n).map fun l => e :: l)

/-- Bellman-Ford algorithm state (src/bellman_ford.rs). -/
structure BellmanFordAlgorithm where
  total_vertices : Nat
  edges : List Edge
deriving Repr

namespace BellmanFordAlgorithm

/-- `BellmanFordAlgorithm::new`. -/
def new : BellmanFordAlgorithm := ⟨0, []⟩

/-- `add_edge` (src/bellman_ford.rs): registers a source's outgoing edges,
growing `total_vertices` over both endpoints; an empty edge list still
registers the source node. -/
def add_edge (g : BellmanFordAlgorithm) (source : Nat) (es : List (Nat × Int)) :
    BellmanFordAlgorithm :=
  if es.isEmpty then { g with total_vertices := max g.total_vertices (source + 1) }
  else
    es.foldl (fun g dw =>
      { edges := g.edges ++ [⟨source, dw.1, dw.2⟩],
        total_vertices := max (max g.total_vertices (source + 1)) (dw.1 + 1) }) g

/-- `add_edges` (src/bellman_ford.rs). -/
def add_edges (g : BellmanFordAlgorithm) (nodes : List (Nat × List (Nat × Int))) :
    BellmanFordAlgorithm :=
  nodes.foldl (fun g p => g.add_edge p.1 p.2) g

/-- One relaxation attempt of a single edge, paired with its update flag
(the body of the inner `for edge in &self.edges` loop of `run`). -/
def relax (d : List Int) (e : Edge) : List Int × Bool :=
  if d.getD e.source intMax ≠ intMax then
    if d.getD e.source intMax + e.weight < d.getD e.destination intMax then
      (d.set e.destination (d.getD e.source intMax + e.weight), true)
    else (d, false)
  else (d, false)

/-- One full pass over the edge list: one round of the outer loop of `run`,
with the `is_distance_updated` flag. -/
def pass (es : List Edge) (d : List Int) : List Int × Bool :=
  es.foldl (fun acc e => ((relax acc.1 e).1, acc.2 || (relax acc.1 e).2)) (d, false)

/-- The bounded relaxation rounds (`for _ in 0..total_vertices - 1`) with the
early exit when a round makes no update. -/
def rounds (es : List Edge) : Nat → List Int → List Int
  | 0, d => d
  | k + 1, d =>
    if (pass es d).2 then rounds es k (pass es d).1 else (pass es d).1

/-- Whether the edge would still strictly improve its destination's distance
(the condition of the final detection pass of `run`). -/
def improves (d : List Int) (e : Edge) : Bool :=
  decide (d.getD e.source intMax ≠ intMax ∧
    d.getD e.source intMax + e.weight < d.getD e.destination intMax)

/-- `run` (src/bellman_ford.rs).  `start : Option Int` mirrors `Option<isize>`;
`Int.toNat` mirrors `start as usize` for nonnegative starts (a negative or
out-of-range start makes the Rust original panic on `distances[start] = 0`;
here the write is dropped, and the theorems below restrict to in-range starts). -/
def run (g : BellmanFordAlgorithm) (start : Option Int) :
    Except GraphError (List Int) :=
  match start with
  | none => .error .missingStartNode
  | some s =>
    if g.edges.any (improves (rounds g.edges (g.total_vertices - 1)
        ((List.replicate g.total_vertices intMax).set s.toNat 0))) then
      .error .negativeWeightCycle
    else
      .ok (rounds g.edges (g.total_vertices - 1)
        ((List.replicate g.total_vertices intMax).set s.toNat 0))

/-- Both endpoints of every edge are below `total_vertices` (guaranteed by the
`add_edge`/`add_edges` builders; the Rust `run` indexes the distance vector
with them unchecked). -/
def WF (g : BellmanFordAlgorithm) : Prop :=
  ∀ e ∈ g.edges, e.source < g.total_vertices ∧ e.destination < g.total_vertices

end BellmanFordAlgorithm

/-- Dijkstra's algorithm state (src/dijkstra.rs).  The field
`graph: HashMap<usize, Vec<(usize, usize)>>` is modelled as an association
list with first-match lookup and replace-or-append insertion; `run` reads the
map only through `get` and `len`, and writes the distance map's entries to
distinct vector indices, so the hash iteration order is irrelevant to its
result. -/
structure DijkstraAlgorithm where
  graph : List (Nat × List (Nat × Nat))
deriving Repr

namespace DijkstraAlgorithm

/-- `DijkstraAlgorithm::new`. -/
def new : DijkstraAlgorithm := ⟨[]⟩

/-- HashMap lookup. -/
def lookupA {β : Type} : List (Nat × β) → Nat → Option β
  | [], _ => none
  | p :: l, k => if p.1 = k then some p.2 else lookupA l k

/-- HashMap insert: replace the key's entry if present, otherwise append. -/
def insertA {β : Type} : List (Nat × β) → Nat → β → List (Nat × β)
  | [], k, b => [(k, b)]
  | p :: l, k, b => if p.1 = k then (k, b) :: l else p :: insertA l k b

/-- `set_node` (src/dijkstra.rs): `self.graph.insert(node, edges)`. -/
def set_node (g : DijkstraAlgorithm) (node : Nat) (edges : List (Nat × Nat)) :
    DijkstraAlgorithm :=
  ⟨insertA g.graph node edges⟩

/-- `set_nodes` (src/dijkstra.rs). -/
def set_nodes (g : DijkstraAlgorithm) (nodes : List (Nat × List (Nat × Nat))) :
    DijkstraAlgorithm :=
  nodes.foldl (fun g p => g.set_node p.1 p.2) g

/-- `a` pops before `b` from the `BinaryHeap<State>`: the derived order is by
descending cost with ties broken toward the larger position (the `Ord`
implementation of `State` reverses the cost comparison). -/
def before (a b : Nat × Nat) : Bool :=
  decide (a.1 < b.1 ∨ (a.1 = b.1 ∧ b.2 < a.2))

/-- `BinaryHeap::pop`: select the maximum entry of the heap (here: the
entry popping first) and return it with the remaining entries. -/
def popTop : List (Nat × Nat) → Option ((Nat × Nat) × List (Nat × Nat))
  | [] => none
  | p :: l =>
    match popTop l with
    | none => some (p, [])
    | some (q, r) => if before q p then some (q, p :: r) else some (p, l)

/-- The loop state of `run`: the `distances` map and the priority queue
(each entry a `(cost, position)` pair). -/
structure DState where
  dist : List (Nat × Nat)
  queue : List (Nat × Nat)
deriving Repr

/-- The body of the inner `for &(neighbor, weight) in neighbors` loop of
`run`: relax one neighbor, recording the improved cost and pushing the new
queue entry. -/
def relaxStep (cost : Nat) (st : DState) (nw : Nat × Nat) : DState :=
  if (match lookupA st.dist nw.1 with
      | some dv => decide (cost + nw.2 < dv)
      | none => true) then
    { dist := insertA st.dist nw.1 (cost + nw.2),
      queue := st.queue ++ [(cost + nw.2, nw.1)] }
  else st

/-- The inner `for &(neighbor, weight) in neighbors` loop of `run`. -/
def relaxN (cost : Nat) (acc : DState) (nbrs : List (Nat × Nat)) : DState :=
  nbrs.foldl (relaxStep cost) acc

/-- One iteration of the `while let Some(state) = priority_queue.pop()` loop;
a state with an empty queue is left unchanged. -/
def dstep (g : DijkstraAlgorithm) (s : DState) : DState :=
  match popTop s.queue with
  | none => s
  | some (cp, rest) =>
    if (match lookupA s.dist cp.2 with
        | some dv => decide (cp.1 > dv)
        | none => false) then
      { s with queue := rest }
    else
      match lookupA g.graph cp.2 with
      | some nbrs => relaxN cp.1 ⟨s.dist, rest⟩ nbrs
      | none => { s with queue := rest }

/-- Iterate the loop body `n` times. -/
def dexec (g : DijkstraAlgorithm) : Nat → DState → DState
  | 0, s => s
  | n + 1, s => dexec g n (dstep g s)

/-- The state just before the loop: `distances.insert(start, 0)` and the seed
entry `State { cost: 0, position: start }` pushed. -/
def dinit (start : Nat) : DState := ⟨[(start, 0)], [(0, start)]⟩

/-- The conversion after the loop: write every map entry whose node is in
range into the result vector (`if node < result.len()`). -/
def collect (dist : List (Nat × Nat)) (r : List Nat) : List Nat :=
  dist.foldl (fun r p => if p.1 < r.length then r.set p.1 p.2 else r) r

/-- `DOutcome g start r`: iterating the loop from the initial state empties
the queue, and the final conversion of the distance map yields `r`.  The Rust
loop performs exactly these deterministic steps until its queue is empty, so
its return value `Ok(r)` is characterised by this relation. -/
def DOutcome (g : DijkstraAlgorithm) (start : Nat) (r : List Nat) : Prop :=
  ∃ n, (dexec g n (dinit start)).queue = [] ∧
    r = collect (dexec g n (dinit start)).dist
      (List.replicate g.graph.length natMax)

/-- The full `run` relation (src/dijkstra.rs), including the
`start.ok_or(GraphError::MissingStartNode)?` check. -/
def DRun (g : DijkstraAlgorithm) (start : Option Nat)
    (res : Except GraphError (List Nat)) : Prop :=
  match start with
  | none => res = .error .missingStartNode
  | some s => ∃ r, res = .ok r ∧ DOutcome g s r

/-- The adjacency map's edges as generic edges (weights cast to `Int`). -/
def dEdges (g : DijkstraAlgorithm) : List Edge :=
  g.graph.flatMap fun p => p.2.map fun nw => ⟨p.1, nw.1, (nw.2 : Int)⟩

end DijkstraAlgorithm

/-- Floyd-Warshall algorithm state (src/floyd_warshall.rs). -/
structure FloydWarshallAlgorithm where
  total_nodes : Nat
  edges : List (Nat × Nat × Int)
deriving Repr

namespace FloydWarshallAlgorithm

/-- `FloydWarshallAlgorithm::new`. -/
def new : FloydWarshallAlgorithm := ⟨0, []⟩

/-- `set_edge` (src/floyd_warshall.rs): append the triple and grow
`total_nodes` over both endpoints. -/
def set_edge (g : FloydWarshallAlgorithm) (source target : Nat) (weight : Int) :
    FloydWarshallAlgorithm :=
  ⟨max (max g.total_nodes (source + 1)) (target + 1),
    g.edges ++ [(source, target, weight)]⟩

/-- `set_edges` (src/floyd_warshall.rs). -/
def set_edges (g : FloydWarshallAlgorithm) (nodes : List (Nat × List (Nat × Int))) :
    FloydWarshallAlgorithm :=
  nodes.foldl (fun g p => p.2.foldl (fun g tw => g.set_edge p.1 tw.1 tw.2) g) g

/-- `set_total_nodes` (src/floyd_warshall.rs): only ever grows the count. -/
def set_total_nodes (g : FloydWarshallAlgorithm) (total : Nat) :
    FloydWarshallAlgorithm :=
  { g with total_nodes := max g.total_nodes total }

/-- Read entry `(i, j)` of the distance matrix. -/
def mGet (m : List (List Int)) (i j : Nat) : Int := (m.getD i []).getD j intMax

/-- Write entry `(i, j)` of the distance matrix (no-op out of range, where the
Rust original would panic; the builders keep all indices in range). -/
def mSet (m : List (List Int)) (i j : Nat) (x : Int) : List (List Int) :=
  m.set i ((m.getD i []).set j x)

/-- The matrix after `distances[u][v] = w` for every stored edge, in order
(a later parallel edge overwrites an earlier one). -/
def initial (g : FloydWarshallAlgorithm) : List (List Int) :=
  g.edges.foldl (fun m e => mSet m e.1 e.2.1 e.2.2)
    (List.replicate g.total_nodes (List.replicate g.total_nodes intMax))

/-- The diagonal pass `row[v] = 0` that follows the edge writes. -/
def withDiag (g : FloydWarshallAlgorithm) : List (List Int) :=
  (List.range g.total_nodes).foldl (fun m v => mSet m v v 0) (initial g)

/-- The body of the triple loop for fixed `(k, i, j)`. -/
def fwStep (m : List (List Int)) (k i j : Nat) : List (List Int) :=
  if mGet m i k ≠ intMax ∧ mGet m k j ≠ intMax then
    mSet m i j (min (mGet m i j) (mGet m i k + mGet m k j))
  else m

/-- The two inner loops for a fixed intermediate node `k`. -/
def fwPass (n : Nat) (m : List (List Int)) (k : Nat) : List (List Int) :=
  (List.range n).foldl (fun m i =>
    (List.range n).foldl (fun m j => fwStep m k i j) m) m

/-- `run` (src/floyd_warshall.rs); the start argument is ignored. -/
def run (g : FloydWarshallAlgorithm) (_start : Option Nat) :
    Except GraphError (List (List Int)) :=
  .ok ((List.range g.total_nodes).foldl (fwPass g.total_nodes) (withDiag g))

/-- The stored triples as generic edges. -/
def fwEdges (g : FloydWarshallAlgorithm) : List Edge :=
  g.edges.map fun t => ⟨t.1, t.2.1, t.2.2⟩

/-- Both endpoints of every stored edge are below `total_nodes`
(maintained by the builders). -/
def WF (g : FloydWarshallAlgorithm) : Prop :=
  ∀ e ∈ g.edges, e.1 < g.total_nodes ∧ e.2.1 < g.total_nodes

/-- Every row has length `n` and there are `n` rows. -/
def Square (n : Nat) (m : List (List Int)) : Prop :=
  m.length = n ∧ ∀ row ∈ m, row.length = n

/-- Weight of the last stored parallel edge from `u` to `v`, if any. -/
def lastW (edges : List (Nat × Nat × Int)) (u v : Nat) : Option Int :=
  (edges.filter fun e => decide (e.1 = u ∧ e.2.1 = v)).getLast?.map fun e => e.2.2

/-- Every non-sentinel in-range entry is the exact weight of some walk between
its indices. -/
def FInv (E : List Edge) (n : Nat) (m : List (List Int)) : Prop :=
  ∀ i j, i < n → j < n → mGet m i j = intMax ∨
    ∃ ws, IsWalk E i j ws ∧ walkWeight ws = mGet m i j

end FloydWarshallAlgorithm

/-- Executable walk check, equivalent to `IsWalk` (used to decide the absence
of negative cycles on concrete graphs). -/
def isWalkB (E : List Edge) : Nat → Nat → List Edge → Bool
  | u, v, [] => decide (u = v)
  | u, v, e :: es => decide (e ∈ E) && decide (e.source = u) && isWalkB E e.destination v es

namespace BellmanFordAlgorithm

/-- The distance-vector part of one full relaxation pass. -/
def passD (es : List Edge) (d : List Int) : List Int := (pass es d).1

/-- `k` unconditional full relaxation passes in sequence. -/
def passIter (es : List Edge) : Nat → List Int → List Int
  | 0, d => d
  | k + 1, d => passIter es k (passD es d)

/-- No edge with a non-sentinel source distance can still strictly improve its
destination: exactly the condition of the final detection pass of `run`. -/
def Feasible (E : List Edge) (d : List Int) : Prop :=
  ∀ e ∈ E, d.getD e.source intMax ≠ intMax →
    d.getD e.destination intMax ≤ d.getD e.source intMax + e.weight

/-- Every entry of the distance vector is at most the sentinel. -/
def BLe (d : List Int) : Prop := ∀ i, d.getD i intMax ≤ intMax

/-- Every non-sentinel entry is the exact weight of a sentinel-safe walk from
the start to its index. -/
def WalkInv (E : List Edge) (s : Nat) (d : List Int) : Prop :=
  ∀ i, d.getD i intMax ≠ intMax →
    ∃ ws, IsWalk E s i ws ∧ walkWeight ws = d.getD i intMax ∧ SafeWalk ws

/-- After `k` rounds, every entry is bounded by the weight of every
sentinel-safe walk of at most `k` edges from the start to its index. -/
def UpperInv (E : List Edge) (s : Nat) (k : Nat) (d : List Int) : Prop :=
  ∀ i ws, IsWalk E s i ws → SafeWalk ws → ws.length ≤ k →
    d.getD i intMax ≤ walkWeight ws

end BellmanFordAlgorithm

namespace DijkstraAlgorithm

/-- The keys of an association list. -/
def keys {β : Type} (l : List (Nat × β)) : List Nat := l.map Prod.fst

/-- All neighbor node ids mentioned in the adjacency map. -/
def targets (g : DijkstraAlgorithm) : List Nat :=
  g.graph.flatMap fun p => p.2.map Prod.fst

/-- The finitely many node ids a distance-map key can ever be. -/
def kandidates (g : DijkstraAlgorithm) (start : Nat) : List Nat :=
  (start :: targets g).dedup

/-- Number of ids from `K` without a recorded distance yet. -/
def m1d (K : List Nat) (dist : List (Nat × Nat)) : Nat :=
  (K.filter fun x => (lookupA dist x).isNone).length

/-- Number of candidate node ids not yet in the distance map
(first component of the termination measure). -/
def m1 (g : DijkstraAlgorithm) (start : Nat) (s : DState) : Nat :=
  m1d (kandidates g start) s.dist

/-- Sum of the recorded distances (second component of the measure). -/
def m2 (s : DState) : Nat := (s.dist.map Prod.snd).sum

/-- Queue length (third component of the measure). -/
def m3 (s : DState) : Nat := s.queue.length

/-- Structural state invariant: distinct map keys, all drawn from the
candidate set. -/
def DBase (g : DijkstraAlgorithm) (start : Nat) (s : DState) : Prop :=
  (keys s.dist).Nodup ∧ ∀ x ∈ keys s.dist, x ∈ kandidates g start

/-- All outgoing edges of the recorded node `p.1` (with recorded distance
`p.2`) have been relaxed against the current distance map. -/
def Settled (g : DijkstraAlgorithm) (dist : List (Nat × Nat)) (p : Nat × Nat) : Prop :=
  ∀ nbrs, lookupA g.graph p.1 = some nbrs → ∀ nw ∈ nbrs,
    ∃ dv, lookupA dist nw.1 = some dv ∧ dv ≤ p.2 + nw.2

/-- Functional state invariant of the main loop: the start keeps distance 0;
every queue entry's node is recorded with a distance no larger than the
entry's cost; every recorded node either has its exact distance pending in
the queue or has all its outgoing edges relaxed; and every recorded node is
reachable from the start. -/
def DInv (g : DijkstraAlgorithm) (start : Nat) (s : DState) : Prop :=
  lookupA s.dist start = some 0 ∧
  (∀ cp ∈ s.queue, ∃ dv, lookupA s.dist cp.2 = some dv ∧ dv ≤ cp.1) ∧
  (∀ p ∈ s.dist, ((p.2, p.1) ∈ s.queue) ∨ Settled g s.dist p) ∧
  (∀ p ∈ s.dist, Reaches (dEdges g) start p.1)

end DijkstraAlgorithm

/-- Bellman-Ford graph of claim C1's counterexample: a negative self-loop at
node 1, reachable from node 0 only over an `i32::MAX`-weight edge. -/
def gBF1 : BellmanFordAlgorithm :=
  (BellmanFordAlgorithm.new.add_edge 0 [(1, 2147483647)]).add_edge 1 [(1, -1)]

/-- Bellman-Ford graph of the spec's concrete negative-cycle scenario
`0→1:1, 1→2:-1, 2→0:-1`. -/
def gBFneg : BellmanFordAlgorithm :=
  BellmanFordAlgorithm.add_edges BellmanFordAlgorithm.new
    [(0, [(1, 1)]), (1, [(2, -1)]), (2, [(0, -1)])]

/-- Bellman-Ford graph of the spec's concrete scenario
`0→1:4, 0→2:3, 1→2:1, 1→3:2, 2→3:5`. -/
def gBFok : BellmanFordAlgorithm :=
  ((BellmanFordAlgorithm.new.add_edge 0 [(1, 4), (2, 3)]).add_edge 1
    [(2, 1), (3, 2)]).add_edge 2 [(3, 5)]

/-- Dijkstra graph of the spec's concrete scenario `0→1:1, 0→2:4, 1→2:2`. -/
def gD1 : DijkstraAlgorithm :=
  DijkstraAlgorithm.new.set_nodes [(0, [(1, 1), (2, 4)]), (1, [(2, 2)]), (2, [])]

/-- Dijkstra graph with the single registered node 0 (run from the
unregistered start 5 in claim C2's counterexample). -/
def gD5 : DijkstraAlgorithm := DijkstraAlgorithm.new.set_node 0 []

/-- Dijkstra graph whose only edge points at the unregistered node 5. -/
def gDdrop : DijkstraAlgorithm := DijkstraAlgorithm.new.set_node 0 [(5, 1)]

/-- Dijkstra graph with an unreachable registered node 2. -/
def gDisol : DijkstraAlgorithm :=
  DijkstraAlgorithm.new.set_nodes [(0, [(1, 1)]), (1, []), (2, [(0, 3)])]

/-- Floyd-Warshall graph of claim C6's counterexample: node 2 lies on no
negative simple cycle (its only simple cycle `2→1→2` weighs 4), yet the
negative cycle `1→0→1` drives the diagonal entry of node 2 negative. -/
def gC6 : FloydWarshallAlgorithm :=
  (((FloydWarshallAlgorithm.new.set_edge 2 1 5).set_edge 1 0 1).set_edge 0 1
    (-10)).set_edge 1 2 (-1)

/-- Floyd-Warshall graph with two parallel edges `0→1`, the cheaper first. -/
def gC10 : FloydWarshallAlgorithm :=
  (FloydWarshallAlgorithm.new.set_edge 0 1 1).set_edge 0 1 5

theorem getD_set_self {α : Type} (l : List α) (i : Nat) (x d : α) (h : i < l.length) :
    (l.set i x).getD i d = x := by
  induction l generalizing i with
  | nil => simp at h
  | cons a t ih =>
    cases i with
    | zero => simp [List.set, List.getD]
    | succ j =>
      simp only [List.set, List.getD_cons_succ]
      exact ih j (by simpa using h)

theorem getD_set_ne {α : Type} (l : List α) (i j : Nat) (x d : α) (h : i ≠ j) :
    (l.set j x).getD i d = l.getD i d := by
  induction l generalizing i j with
  | nil => simp [List.set]
  | cons a t ih =>
    cases j with
    | zero =>
      cases i with
      | zero => exact absurd rfl h
      | succ i' => simp [List.set]
    | succ j' =>
      cases i with
      | zero => simp [List.set]
      | succ i' =>
        simp only [List.set, List.getD_cons_succ]
        exact ih i' j' (fun hc => h (by simp [hc]))

theorem getD_oob {α : Type} (l : List α) (i : Nat) (d : α) (h : l.length ≤ i) :
    l.getD i d = d := by
  induction l generalizing i with
  | nil => simp [List.getD]
  | cons a t ih =>
    cases i with
    | zero => simp at h
    | succ j =>
      simp only [List.getD_cons_succ]
      exact ih j (by simpa using h)

theorem set_oob {α : Type} (l : List α) (i : Nat) (x : α) (h : l.length ≤ i) :
    l.set i x = l := by
  induction l generalizing i with
  | nil => simp
  | cons a t ih =>
    cases i with
    | zero => simp at h
    | succ j => simpa using ih j (by simpa using h)

theorem getD_replicate {α : Type} (n i : Nat) (x d : α) (h : i < n) :
    (List.replicate n x).getD i d = x := by
  induction n generalizing i with
  | zero => simp at h
  | succ m ih =>
    cases i with
    | zero => simp [List.replicate]
    | succ j =>
      simp only [List.replicate, List.getD_cons_succ]
      exact ih j (by simpa using h)

theorem walkWeight_nil : walkWeight [] = 0 := rfl

theorem walkWeight_cons (e : Edge) (es : List Edge) :
    walkWeight (e :: es) = e.weight + walkWeight es := by
  simp [walkWeight]

theorem walkWeight_append (l1 l2 : List Edge) :
    walkWeight (l1 ++ l2) = walkWeight l1 + walkWeight l2 := by
  simp [walkWeight]

theorem IsWalk.append {E : List Edge} {u m v : Nat} {l1 l2 : List Edge}
    (h1 : IsWalk E u m l1) (h2 : IsWalk E m v l2) : IsWalk E u v (l1 ++ l2) := by
  induction h1 with
  | nil => simpa using h2
  | cons e he _ ih => exact IsWalk.cons e he (ih h2)

theorem IsWalk.concat {E : List Edge} {u m : Nat} {l : List Edge} {e : Edge}
    (h : IsWalk E u m l) (he : e ∈ E) (hs : e.source = m) :
    IsWalk E u e.destination (l ++ [e]) := by
  refine h.append ?_
  have : IsWalk E e.source e.destination [e] := IsWalk.cons e he (IsWalk.nil _)
  rwa [hs] at this

theorem isWalk_nil_inv {E : List Edge} {u v : Nat} (h : IsWalk E u v []) : u = v := by
  cases h; rfl

theorem isWalk_cons_inv {E : List Edge} {u v : Nat} {e : Edge} {es : List Edge}
    (h : IsWalk E u v (e :: es)) :
    e ∈ E ∧ e.source = u ∧ IsWalk E e.destination v es := by
  cases h with
  | cons _ he hw => exact ⟨he, rfl, hw⟩

theorem isWalk_append_inv {E : List Edge} {u v : Nat} :
    ∀ {l1 l2 : List Edge}, IsWalk E u v (l1 ++ l2) →
      ∃ m, IsWalk E u m l1 ∧ IsWalk E m v l2 := by
  intro l1
  induction l1 generalizing u with
  | nil => intro l2 h; exact ⟨u, IsWalk.nil u, by simpa using h⟩
  | cons e t ih =>
    intro l2 h
    rw [List.cons_append] at h
    obtain ⟨he, hs, hw⟩ := isWalk_cons_inv h
    obtain ⟨m, hm1, hm2⟩ := ih hw
    exact ⟨m, hs ▸ IsWalk.cons e he hm1, hm2⟩

theorem isWalk_mem {E : List Edge} {u v : Nat} {es : List Edge}
    (h : IsWalk E u v es) : ∀ e ∈ es, e ∈ E := by
  induction h with
  | nil => simp
  | cons e he _ ih =>
    intro f hf
    rcases List.mem_cons.mp hf with h1 | h2
    · exact h1 ▸ he
    · exact ih f h2

theorem isWalkB_iff {E : List Edge} {u v : Nat} {es : List Edge} :
    isWalkB E u v es = true ↔ IsWalk E u v es := by
  induction es generalizing u with
  | nil =>
    constructor
    · intro h; simp [isWalkB] at h; exact h ▸ IsWalk.nil u
    · intro h; simp [isWalkB, isWalk_nil_inv h]
  | cons e t ih =>
    constructor
    · intro h
      simp only [isWalkB, Bool.and_eq_true, decide_eq_true_eq] at h
      obtain ⟨⟨he, hs⟩, hw⟩ := h
      exact hs ▸ IsWalk.cons e he (ih.mp hw)
    · intro h
      obtain ⟨he, hs, hw⟩ := isWalk_cons_inv h
      simp only [isWalkB, Bool.and_eq_true, decide_eq_true_eq]
      exact ⟨⟨he, hs⟩, ih.mpr hw⟩

theorem dup_split {α : Type} {l : List α} (h : ¬ l.Nodup) :
    ∃ x l1 l2 l3, l = l1 ++ x :: (l2 ++ x :: l3) := by
  induction l with
  | nil => exact absurd List.nodup_nil h
  | cons a t ih =>
    by_cases hm : a ∈ t
    · obtain ⟨s, r, hsr⟩ := List.append_of_mem hm
      exact ⟨a, [], s, r, by simp [hsr]⟩
    · have hnt : ¬ t.Nodup := fun hn => h (List.nodup_cons.mpr ⟨hm, hn⟩)
      obtain ⟨x, l1, l2, l3, hsplit⟩ := ih hnt
      exact ⟨x, a :: l1, l2, l3, by simp [hsplit]⟩

theorem nodup_length_le {l : List Nat} {n : Nat} (hn : l.Nodup)
    (hb : ∀ x ∈ l, x < n) : l.length ≤ n := by
  have h1 : l.toFinset.card = l.length := List.toFinset_card_of_nodup hn
  have h2 : l.toFinset ⊆ Finset.range n := by
    intro x hx
    exact Finset.mem_range.mpr (hb x (List.mem_toFinset.mp hx))
  have := Finset.card_le_card h2
  simpa [h1] using this

theorem mem_listsUpTo {α : Type} {E : List α} {l : List α} :
    ∀ {n : Nat}, (∀ x ∈ l, x ∈ E) → l.length ≤ n → l ∈ listsUpTo E n := by
  induction l with
  | nil =>
    intro n _ _
    cases n <;> simp [listsUpTo]
  | cons a t ih =>
    intro n hmem hlen
    cases n with
    | zero => simp at hlen
    | succ m =>
      simp only [listsUpTo, List.mem_append, List.mem_flatMap, List.mem_map]
      right
      refine ⟨a, hmem a (by simp), t, ih (fun x hx => hmem x (by simp [hx])) ?_, rfl⟩
      simpa using hlen

theorem safeWalk_nil : SafeWalk [] := by
  intro k
  simp only [List.take_nil, walkWeight_nil]
  unfold intMax
  omega

theorem safeWalk_append_left {l1 l2 : List Edge} (h : SafeWalk (l1 ++ l2)) :
    SafeWalk l1 := by
  intro k
  by_cases hk : k ≤ l1.length
  · rw [← List.take_append_of_le_length hk]
    exact h k
  · push_neg at hk
    rw [List.take_of_length_le (le_of_lt hk)]
    have := h l1.length
    rwa [List.take_append_of_le_length (le_refl _), List.take_of_length_le (le_refl _)]
      at this

theorem safeWalk_snoc {ws : List Edge} {e : Edge} (h : SafeWalk ws)
    (hfull : walkWeight (ws ++ [e]) < intMax) : SafeWalk (ws ++ [e]) := by
  intro k
  by_cases hk : k ≤ ws.length
  · rw [List.take_append_of_le_length hk]
    exact h k
  · push_neg at hk
    rw [List.take_of_length_le (by simp; omega)]
    exact hfull

theorem safeWalk_remove {P1 P2 P3 : List Edge} (hs : SafeWalk (P1 ++ (P2 ++ P3)))
    (hnn : 0 ≤ walkWeight P2) : SafeWalk (P1 ++ P3) := by
  intro k
  by_cases hk : k ≤ P1.length
  · rw [List.take_append_of_le_length hk]
    have := hs k
    rwa [List.take_append_of_le_length hk] at this
  · push_neg at hk
    rw [List.take_append_eq_append_take, List.take_of_length_le (le_of_lt hk),
      walkWeight_append]
    have hbig := hs (P1.length + P2.length + (k - P1.length))
    rw [List.take_append_eq_append_take, List.take_of_length_le (by omega),
      List.take_append_eq_append_take, List.take_of_length_le (by omega),
      walkWeight_append, walkWeight_append] at hbig
    have harg : P1.length + P2.length + (k - P1.length) - P1.length - P2.length =
        k - P1.length := by omega
    rw [harg] at hbig
    omega

theorem walk_split_at_src {E : List Edge} :
    ∀ {es : List Edge} {u v z : Nat} {S1 S2 : List Nat},
      IsWalk E u v es → es.map Edge.source = S1 ++ z :: S2 →
      ∃ l1 l2, es = l1 ++ l2 ∧ l1.map Edge.source = S1 ∧
        l2.map Edge.source = z :: S2 ∧ IsWalk E u z l1 ∧ IsWalk E z v l2 := by
  intro es
  induction es with
  | nil =>
    intro u v z S1 S2 _ hmap
    exact absurd hmap.symm (by simp)
  | cons e t ih =>
    intro u v z S1 S2 hw hmap
    obtain ⟨he, hsrc, hwt⟩ := isWalk_cons_inv hw
    cases S1 with
    | nil =>
      simp only [List.map_cons, List.nil_append] at hmap
      obtain ⟨hz, hrest⟩ := List.cons.inj hmap
      refine ⟨[], e :: t, by simp, rfl, ?_, ?_, ?_⟩
      · simp [hz, hrest]
      · rw [← hsrc, hz]
        exact IsWalk.nil _
      · rw [← hz, hsrc]
        exact hw
    | cons s1 S1t =>
      simp only [List.map_cons, List.cons_append] at hmap
      obtain ⟨hs1, hrest⟩ := List.cons.inj hmap
      obtain ⟨l1, l2, hsplit, hm1, hm2, hw1, hw2⟩ := ih hwt hrest
      refine ⟨e :: l1, l2, by simp [hsplit], by simp [hs1, hm1], hm2, ?_, hw2⟩
      rw [← hsrc]
      exact IsWalk.cons e he hw1

theorem walk_split_at_dest {E : List Edge} :
    ∀ {es : List Edge} {u v x : Nat} {D1 D2 : List Nat},
      IsWalk E u v es → es.map Edge.destination = D1 ++ x :: D2 →
      ∃ l1 l2, es = l1 ++ l2 ∧ l1.map Edge.destination = D1 ++ [x] ∧
        l2.map Edge.destination = D2 ∧ IsWalk E u x l1 ∧ IsWalk E x v l2 := by
  intro es
  induction es with
  | nil =>
    intro u v x D1 D2 _ hmap
    exact absurd hmap.symm (by simp)
  | cons e t ih =>
    intro u v x D1 D2 hw hmap
    obtain ⟨he, hsrc, hwt⟩ := isWalk_cons_inv hw
    cases D1 with
    | nil =>
      simp only [List.map_cons, List.nil_append] at hmap
      obtain ⟨hx, hrest⟩ := List.cons.inj hmap
      refine ⟨[e], t, by simp, by simp [hx], hrest, ?_, ?_⟩
      · rw [← hsrc, ← hx]
        exact IsWalk.cons e he (IsWalk.nil _)
      · rw [← hx]
        exact hwt
    | cons d1 D1t =>
      simp only [List.map_cons, List.cons_append] at hmap
      obtain ⟨hd1, hrest⟩ := List.cons.inj hmap
      obtain ⟨l1, l2, hsplit, hm1, hm2, hw1, hw2⟩ := ih hwt hrest
      refine ⟨e :: l1, l2, by simp [hsplit], by simp [hd1, hm1], hm2, ?_, hw2⟩
      rw [← hsrc]
      exact IsWalk.cons e he hw1

theorem wNodes_reach {E : List Edge} :
    ∀ {es : List Edge} {u v x : Nat}, IsWalk E u v es → x ∈ wNodes u es →
      Reaches E u x := by
  intro es
  induction es with
  | nil =>
    intro u v x _ hx
    simp only [wNodes, List.map_nil, List.mem_singleton] at hx
    refine ⟨[], ?_⟩
    rw [hx]
    exact IsWalk.nil u
  | cons e t ih =>
    intro u v x hw hx
    obtain ⟨he, hsrc, hwt⟩ := isWalk_cons_inv hw
    simp only [wNodes, List.map_cons, List.mem_cons] at hx
    rcases hx with hxu | hx
    · refine ⟨[], ?_⟩
      rw [hxu]
      exact IsWalk.nil u
    · have hx2 : x ∈ wNodes e.destination t := by
        simp only [wNodes, List.mem_cons]
        exact hx
      obtain ⟨ws, hws⟩ := ih hwt hx2
      exact ⟨e :: ws, hsrc ▸ IsWalk.cons e he hws⟩

theorem reaches_trans {E : List Edge} {a b c : Nat} (h1 : Reaches E a b)
    (h2 : Reaches E b c) : Reaches E a c := by
  obtain ⟨l1, hl1⟩ := h1
  obtain ⟨l2, hl2⟩ := h2
  exact ⟨l1 ++ l2, hl1.append hl2⟩

theorem wNodes_lt {E : List Edge} {n : Nat} (hwf : ∀ e ∈ E, e.destination < n)
    {u v : Nat} {es : List Edge} (hu : u < n) (hw : IsWalk E u v es) :
    ∀ x ∈ wNodes u es, x < n := by
  intro x hx
  simp only [wNodes, List.mem_cons, List.mem_map] at hx
  rcases hx with hxu | ⟨e, he, hde⟩
  · exact hxu ▸ hu
  · exact hde ▸ hwf e (isWalk_mem hw e he)

theorem cutCycles {E : List Edge} {n : Nat} (hn : 0 < n) :
    ∀ (L : Nat) {es : List Edge} {u v : Nat}, es.length ≤ L → IsWalk E u v es →
      SafeWalk es → (∀ x ∈ wNodes u es, x < n) →
      (∃ ys, IsWalk E u v ys ∧ SafeWalk ys ∧ ys.length < n ∧
        walkWeight ys ≤ walkWeight es) ∨
      (∃ x cs, IsWalk E x x cs ∧ cs ≠ [] ∧ walkWeight cs < 0 ∧ x ∈ wNodes u es) := by
  intro L
  induction L with
  | zero =>
    intro es u v hlen hw hsafe _
    have hnil : es = [] := List.length_eq_zero.mp (Nat.le_zero.mp hlen)
    subst hnil
    exact Or.inl ⟨[], hw, hsafe, by simpa using hn, le_refl _⟩
  | succ m ih =>
    intro es u v hlen hw hsafe hnodes
    by_cases hshort : es.length < n
    · exact Or.inl ⟨es, hw, hsafe, hshort, le_refl _⟩
    · push_neg at hshort
      have hnd : ¬ (wNodes u es).Nodup := by
        intro hnd
        have := nodup_length_le hnd hnodes
        simp only [wNodes, List.length_cons, List.length_map] at this
        omega
      rw [wNodes, List.nodup_cons] at hnd
      push_neg at hnd
      by_cases hmem : u ∈ es.map Edge.destination
      · obtain ⟨D1, D2, hD⟩ := List.append_of_mem hmem
        obtain ⟨l1, l2, hsplit, hm1, hm2, hw1, hw2⟩ := walk_split_at_dest hw hD
        have hl1ne : l1 ≠ [] := by
          intro hc
          rw [hc] at hm1
          exact absurd hm1.symm (by simp)
        by_cases hneg : walkWeight l1 < 0
        · exact Or.inr ⟨u, l1, hw1, hl1ne, hneg, by simp [wNodes]⟩
        · push_neg at hneg
          have hlen2 : l2.length ≤ m := by
            have h1 : es.length = l1.length + l2.length := by
              rw [hsplit]; simp
            have h2 : 1 ≤ l1.length := by
              cases l1 with
              | nil => exact absurd rfl hl1ne
              | cons a b => simp
            omega
          have hsafe2 : SafeWalk l2 := by
            have : SafeWalk ([] ++ (l1 ++ l2)) := by simpa [hsplit] using hsafe
            simpa using safeWalk_remove this hneg
          have hnodes2 : ∀ x ∈ wNodes u l2, x < n := by
            intro x hx
            simp only [wNodes, List.mem_cons] at hx
            rcases hx with hxu | hx
            · exact hnodes x (by simp [wNodes, hxu])
            · refine hnodes x ?_
              simp only [wNodes, List.mem_cons, hsplit, List.map_append,
                List.mem_append]
              exact Or.inr (Or.inr hx)
          rcases ih hlen2 hw2 hsafe2 hnodes2 with ⟨ys, h1, h2, h3, h4⟩ | ⟨x, cs, h1, h2, h3, h4⟩
          · refine Or.inl ⟨ys, h1, h2, h3, ?_⟩
            have : walkWeight es = walkWeight l1 + walkWeight l2 := by
              rw [hsplit, walkWeight_append]
            omega
          · refine Or.inr ⟨x, cs, h1, h2, h3, ?_⟩
            simp only [wNodes, List.mem_cons] at h4 ⊢
            rcases h4 with hxu | hx
            · exact Or.inl hxu
            · right
              simp only [hsplit, List.map_append, List.mem_append]
              exact Or.inr hx
      · have hdnd : ¬ (es.map Edge.destination).Nodup := fun hc => (hnd hmem) hc
        obtain ⟨x, D1, D2, D3, hD⟩ := dup_split hdnd
        obtain ⟨l1, rest, hsplit, hm1, hm2, hw1, hwrest⟩ := walk_split_at_dest hw hD
        obtain ⟨p2, p3, hsplit2, hp2, hp3, hwp2, hwp3⟩ := walk_split_at_dest hwrest hm2
        have hp2ne : p2 ≠ [] := by
          intro hc
          rw [hc] at hp2
          exact absurd hp2.symm (by simp)
        by_cases hneg : walkWeight p2 < 0
        · refine Or.inr ⟨x, p2, hwp2, hp2ne, hneg, ?_⟩
          simp only [wNodes, List.mem_cons, hD]
          right
          simp
        · push_neg at hneg
          have hwout : IsWalk E u v (l1 ++ p3) := hw1.append hwp3
          have hlen2 : (l1 ++ p3).length ≤ m := by
            have h1 : es.length = l1.length + (p2.length + p3.length) := by
              rw [hsplit, hsplit2]; simp
            have h2 : 1 ≤ p2.length := by
              cases p2 with
              | nil => exact absurd rfl hp2ne
              | cons a b => simp
            simp only [List.length_append]
            omega
          have hsafe2 : SafeWalk (l1 ++ p3) := by
            have : SafeWalk (l1 ++ (p2 ++ p3)) := by
              rw [hsplit, hsplit2] at hsafe
              exact hsafe
            exact safeWalk_remove this hneg
          have hnodes2 : ∀ y ∈ wNodes u (l1 ++ p3), y < n := by
            intro y hy
            simp only [wNodes, List.mem_cons, List.map_append, List.mem_append] at hy
            refine hnodes y ?_
            simp only [wNodes, List.mem_cons, hsplit, hsplit2, List.map_append,
              List.mem_append]
            tauto
          rcases ih hlen2 hwout hsafe2 hnodes2 with ⟨ys, h1, h2, h3, h4⟩ | ⟨y, cs, h1, h2, h3, h4⟩
          · refine Or.inl ⟨ys, h1, h2, h3, ?_⟩
            have : walkWeight es = walkWeight l1 + (walkWeight p2 + walkWeight p3) := by
              rw [hsplit, hsplit2, walkWeight_append, walkWeight_append]
            have : walkWeight (l1 ++ p3) = walkWeight l1 + walkWeight p3 :=
              walkWeight_append l1 p3
            omega
          · refine Or.inr ⟨y, cs, h1, h2, h3, ?_⟩
            simp only [wNodes, List.mem_cons, List.map_append, List.mem_append] at h4 ⊢
            rcases h4 with hyu | hy | hy
            · exact Or.inl hyu
            · right
              rw [hsplit, hsplit2]
              simp only [List.map_append, List.mem_append]
              tauto
            · right
              rw [hsplit, hsplit2]
              simp only [List.map_append, List.mem_append]
              tauto

theorem negWalkToCycle {E : List Edge} :
    ∀ (L : Nat) {x : Nat} {cs : List Edge}, cs.length ≤ L → IsWalk E x x cs →
      cs ≠ [] → walkWeight cs < 0 →
      ∃ y ds, IsNegCycle E y ds ∧ y ∈ wNodes x cs := by
  intro L
  induction L with
  | zero =>
    intro x cs hlen _ hne _
    exact absurd (List.length_eq_zero.mp (Nat.le_zero.mp hlen)) hne
  | succ m ih =>
    intro x cs hlen hw hne hneg
    by_cases hnd : (wSources cs).Nodup
    · exact ⟨x, cs, ⟨hne, hw, hnd, hneg⟩, by simp [wNodes]⟩
    · obtain ⟨z, S1, S2, S3, hS⟩ := dup_split hnd
      unfold wSources at hS
      obtain ⟨l1, l2, hsplit, hm1, hm2, hw1, hw2⟩ := walk_split_at_src hw hS
      obtain ⟨r1, r2, hsplit2, hr1, hr2, hwr1, hwr2⟩ :=
        walk_split_at_src hw2 (show List.map Edge.source l2 = (z :: S2) ++ z :: S3 by
          rw [hm2, List.cons_append])
      have hr1ne : r1 ≠ [] := by
        intro hc
        rw [hc] at hr1
        exact absurd hr1.symm (by simp)
      have hr2ne : r2 ≠ [] := by
        intro hc
        rw [hc] at hr2
        exact absurd hr2.symm (by simp)
      have hzmem : z ∈ wNodes x cs := by
        rcases List.eq_nil_or_concat l1 with hl1 | ⟨l1i, e, hl1⟩
        · rw [hl1] at hw1
          have hxz := isWalk_nil_inv hw1
          simp [wNodes, ← hxz]
        · rw [hl1, List.concat_eq_append] at hw1
          obtain ⟨mm, hmm1, hmm2⟩ := isWalk_append_inv hw1
          obtain ⟨hee, hes, hinv⟩ := isWalk_cons_inv hmm2
          have hdz := isWalk_nil_inv hinv
          simp only [wNodes, List.mem_cons]
          right
          rw [hsplit, hl1]
          simp only [List.concat_eq_append, List.map_append, List.mem_append,
            List.map_cons, List.map_nil, List.mem_cons]
          exact Or.inl (Or.inr (Or.inl hdz.symm))
      have hweq : walkWeight cs = walkWeight l1 + (walkWeight r1 + walkWeight r2) := by
        rw [hsplit, hsplit2, walkWeight_append, walkWeight_append]
      by_cases hnegr1 : walkWeight r1 < 0
      · have hlenr1 : r1.length ≤ m := by
          have h1 : cs.length = l1.length + (r1.length + r2.length) := by
            rw [hsplit, hsplit2]; simp
          have h2 : 1 ≤ r2.length := by
            cases r2 with
            | nil => exact absurd rfl hr2ne
            | cons a b => simp
          omega
        obtain ⟨y, ds, hcyc, hy⟩ := ih hlenr1 hwr1 hr1ne hnegr1
        refine ⟨y, ds, hcyc, ?_⟩
        simp only [wNodes, List.mem_cons] at hy
        rcases hy with hyz | hy
        · exact hyz ▸ hzmem
        · simp only [wNodes, List.mem_cons, hsplit, hsplit2, List.map_append,
            List.mem_append]
          tauto
      · push_neg at hnegr1
        have houtw : IsWalk E x x (l1 ++ r2) := hw1.append hwr2
        have houtne : l1 ++ r2 ≠ [] := by
          intro hc
          rcases List.append_eq_nil.mp hc with ⟨_, hc2⟩
          exact hr2ne hc2
        have houtneg : walkWeight (l1 ++ r2) < 0 := by
          rw [walkWeight_append]
          omega
        have hlenout : (l1 ++ r2).length ≤ m := by
          have h1 : cs.length = l1.length + (r1.length + r2.length) := by
            rw [hsplit, hsplit2]; simp
          have h2 : 1 ≤ r1.length := by
            cases r1 with
            | nil => exact absurd rfl hr1ne
            | cons a b => simp
          simp only [List.length_append]
          omega
        obtain ⟨y, ds, hcyc, hy⟩ := ih hlenout houtw houtne houtneg
        refine ⟨y, ds, hcyc, ?_⟩
        simp only [wNodes, List.mem_cons, List.map_append, List.mem_append] at hy
        simp only [wNodes, List.mem_cons, hsplit, hsplit2, List.map_append,
          List.mem_append]
        tauto

namespace BellmanFordAlgorithm

theorem relax_eq (d : List Int) (e : Edge) :
    relax d e =
      if d.getD e.source intMax ≠ intMax ∧
          d.getD e.source intMax + e.weight < d.getD e.destination intMax then
        (d.set e.destination (d.getD e.source intMax + e.weight), true)
      else (d, false) := by
  unfold relax
  by_cases h1 : d.getD e.source intMax ≠ intMax
  · by_cases h2 : d.getD e.source intMax + e.weight < d.getD e.destination intMax
    · rw [if_pos h1, if_pos h2, if_pos ⟨h1, h2⟩]
    · rw [if_pos h1, if_neg h2, if_neg (fun hc => h2 hc.2)]
  · rw [if_neg h1, if_neg (fun hc => h1 hc.1)]

theorem relax_length (d : List Int) (e : Edge) : ((relax d e).1).length = d.length := by
  rw [relax_eq]
  split <;> simp

theorem relax_le (d : List Int) (e : Edge) (i : Nat) :
    ((relax d e).1).getD i intMax ≤ d.getD i intMax := by
  rw [relax_eq]
  split
  · rename_i hc
    by_cases hoob : d.length ≤ e.destination
    · simp [set_oob d e.destination _ hoob]
    · push_neg at hoob
      by_cases hi : i = e.destination
      · rw [hi]
        simp only
        rw [getD_set_self d e.destination _ intMax hoob]
        exact le_of_lt hc.2
      · simp only
        rw [getD_set_ne d i e.destination _ intMax hi]
  · exact le_refl _

theorem relax_flag (d : List Int) (e : Edge) : (relax d e).2 = improves d e := by
  rw [relax_eq]
  unfold improves
  split
  · rename_i h
    exact (decide_eq_true h).symm
  · rename_i h
    exact (decide_eq_false h).symm

theorem relax_noflag {d : List Int} {e : Edge} (h : (relax d e).2 = false) :
    (relax d e).1 = d := by
  rw [relax_eq] at h ⊢
  split at h
  · simp at h
  · rename_i hc
    rw [if_neg hc]

theorem pass_fst (es : List Edge) :
    ∀ (d : List Int) (b : Bool),
      (List.foldl (fun acc e => ((relax acc.1 e).1, acc.2 || (relax acc.1 e).2)) (d, b)
        es).1 = List.foldl (fun d e => (relax d e).1) d es := by
  induction es with
  | nil => intro d b; rfl
  | cons e t ih => intro d b; exact ih (relax d e).1 (b || (relax d e).2)

theorem passD_eq (es : List Edge) (d : List Int) :
    passD es d = List.foldl (fun d e => (relax d e).1) d es := by
  unfold passD pass
  exact pass_fst es d false

theorem pass_flag_true (es : List Edge) :
    ∀ (d : List Int),
      (List.foldl (fun acc e => ((relax acc.1 e).1, acc.2 || (relax acc.1 e).2)) (d, true)
        es).2 = true := by
  induction es with
  | nil => intro d; rfl
  | cons e t ih =>
    intro d
    simpa using ih (relax d e).1

theorem pass_flag_false {es : List Edge} :
    ∀ {d : List Int},
      (List.foldl (fun acc e => ((relax acc.1 e).1, acc.2 || (relax acc.1 e).2)) (d, false)
        es).2 = false →
      List.foldl (fun d e => (relax d e).1) d es = d ∧ ∀ e ∈ es, improves d e = false := by
  induction es with
  | nil => intro d _; exact ⟨rfl, by simp⟩
  | cons e t ih =>
    intro d h
    simp only [List.foldl_cons] at h
    have hflag : (relax d e).2 = false := by
      by_contra hc
      rw [Bool.not_eq_false] at hc
      rw [hc] at h
      simp only [Bool.false_or] at h
      rw [pass_flag_true t] at h
      exact Bool.true_eq_false.mp h
    rw [hflag] at h
    simp only [Bool.or_false] at h
    have heq := relax_noflag hflag
    rw [heq] at h
    obtain ⟨h1, h2⟩ := ih h
    refine ⟨by simpa [heq] using h1, ?_⟩
    intro f hf
    rcases List.mem_cons.mp hf with hfe | hft
    · subst hfe
      rw [← relax_flag]
      exact hflag
    · exact h2 f hft

theorem passD_length (es : List Edge) (d : List Int) :
    (passD es d).length = d.length := by
  rw [passD_eq]
  induction es generalizing d with
  | nil => rfl
  | cons e t ih =>
    simp only [List.foldl_cons]
    rw [ih]
    exact relax_length d e

theorem passD_le (es : List Edge) (d : List Int) (i : Nat) :
    (passD es d).getD i intMax ≤ d.getD i intMax := by
  rw [passD_eq]
  induction es generalizing d with
  | nil => exact le_refl _
  | cons e t ih =>
    simp only [List.foldl_cons]
    exact le_trans (by simpa [passD_eq] using ih (relax d e).1) (relax_le d e i)

theorem passIter_le (es : List Edge) (k : Nat) (d : List Int) (i : Nat) :
    (passIter es k d).getD i intMax ≤ d.getD i intMax := by
  induction k generalizing d with
  | zero => exact le_refl _
  | succ m ih => exact le_trans (ih (passD es d)) (passD_le es d i)

theorem rounds_eq_passIter (es : List Edge) :
    ∀ (k : Nat) (d : List Int), ∃ j ≤ k, rounds es k d = passIter es j d := by
  intro k
  induction k with
  | zero => intro d; exact ⟨0, le_refl 0, rfl⟩
  | succ m ih =>
    intro d
    unfold rounds
    split
    · obtain ⟨j, hj, hr⟩ := ih (pass es d).1
      exact ⟨j + 1, Nat.succ_le_succ hj, hr⟩
    · exact ⟨1, Nat.le_add_left 1 m, rfl⟩

theorem rounds_error_full (es : List Edge) :
    ∀ (k : Nat) (d : List Int), (∃ e ∈ es, improves (rounds es k d) e = true) →
      rounds es k d = passIter es k d := by
  intro k
  induction k with
  | zero => intro d _; rfl
  | succ m ih =>
    intro d himp
    unfold rounds at himp ⊢
    split
    · rename_i hflag
      rw [if_pos hflag] at himp
      exact ih (pass es d).1 himp
    · rename_i hflag
      rw [if_neg hflag] at himp
      rw [Bool.not_eq_true] at hflag
      have h1 := @pass_flag_false es d hflag
      obtain ⟨heq, hnone⟩ := h1
      obtain ⟨e, he, himpe⟩ := himp
      have hfst : (pass es d).1 = d := by
        unfold pass
        rw [pass_fst es d false]
        exact heq
      rw [hfst] at himpe
      rw [hnone e he] at himpe
      exact absurd himpe (by simp)

theorem relax_BLe {d : List Int} (h : BLe d) (e : Edge) : BLe (relax d e).1 :=
  fun i => le_trans (relax_le d e i) (h i)

theorem relax_WalkInv {E : List Edge} {s : Nat} {d : List Int} {e : Edge}
    (he : e ∈ E) (hle : BLe d) (hw : WalkInv E s d) : WalkInv E s (relax d e).1 := by
  rw [relax_eq]
  split
  · rename_i hc
    obtain ⟨h1, h2⟩ := hc
    by_cases hoob : d.length ≤ e.destination
    · simpa [set_oob d e.destination _ hoob] using hw
    · push_neg at hoob
      intro i hi
      by_cases hie : i = e.destination
      · rw [hie] at hi ⊢
        simp only at hi ⊢
        rw [getD_set_self d e.destination _ intMax hoob] at hi ⊢
        obtain ⟨ws, hws, hwt, hsafe⟩ := hw e.source h1
        refine ⟨ws ++ [e], hws.concat he rfl, ?_, ?_⟩
        · rw [walkWeight_append, hwt]
          simp [walkWeight]
        · intro k
          by_cases hk : k ≤ ws.length
          · rw [List.take_append_of_le_length hk]
            exact hsafe k
          · push_neg at hk
            rw [List.take_of_length_le (by simp; omega)]
            rw [walkWeight_append, hwt]
            have hd : d.getD e.destination intMax ≤ intMax := hle e.destination
            have hone : walkWeight [e] = e.weight := by simp [walkWeight]
            rw [hone]
            omega
      · simp only at hi ⊢
        rw [getD_set_ne d i e.destination _ intMax hie] at hi ⊢
        exact hw i hi
  · exact hw

theorem passD_BLe {es : List Edge} {d : List Int} (h : BLe d) : BLe (passD es d) :=
  fun i => le_trans (passD_le es d i) (h i)

theorem passD_WalkInv {E : List Edge} {s : Nat} :
    ∀ {es : List Edge} {d : List Int}, (∀ e ∈ es, e ∈ E) → BLe d → WalkInv E s d →
      WalkInv E s (passD es d) := by
  intro es
  induction es with
  | nil => intro d _ _ hw; simpa [passD_eq] using hw
  | cons e t ih =>
    intro d hmem hle hw
    have h1 := relax_WalkInv (hmem e (by simp)) hle hw
    have h2 := relax_BLe hle e
    have h3 := ih (fun f hf => hmem f (by simp [hf])) h2 h1
    rw [passD_eq] at h3
    rw [passD_eq]
    simpa [List.foldl_cons] using h3

theorem passIter_WalkInv {E : List Edge} {s : Nat} {es : List Edge}
    (hmem : ∀ e ∈ es, e ∈ E) :
    ∀ (k : Nat) {d : List Int}, BLe d → WalkInv E s d → WalkInv E s (passIter es k d) := by
  intro k
  induction k with
  | zero => intro d _ hw; exact hw
  | succ m ih =>
    intro d hle hw
    exact ih (passD_BLe hle) (passD_WalkInv hmem hle hw)

theorem passIter_BLe {es : List Edge} (k : Nat) {d : List Int} (h : BLe d) :
    BLe (passIter es k d) := by
  induction k generalizing d with
  | zero => exact h
  | succ m ih => exact ih (passD_BLe h)

theorem d0_getD {n s : Nat} (hs : s < n) (i : Nat) :
    ((List.replicate n intMax).set s 0).getD i intMax = if i = s then 0 else intMax := by
  by_cases hi : i = s
  · rw [hi]
    rw [getD_set_self _ s 0 intMax (by simpa using hs)]
    simp [hi]
  · rw [getD_set_ne _ i s 0 intMax hi]
    by_cases hin : i < n
    · rw [getD_replicate n i intMax intMax hin]
      simp [hi]
    · push_neg at hin
      rw [getD_oob _ i intMax (by simpa using hin)]
      simp [hi]

theorem d0_BLe {n s : Nat} (hs : s < n) : BLe ((List.replicate n intMax).set s 0) := by
  intro i
  rw [d0_getD hs i]
  split
  · unfold intMax; omega
  · exact le_refl _

theorem d0_WalkInv {E : List Edge} {n s : Nat} (hs : s < n) :
    WalkInv E s ((List.replicate n intMax).set s 0) := by
  intro i hi
  rw [d0_getD hs i] at hi ⊢
  by_cases hie : i = s
  · rw [if_pos hie]
    rw [hie]
    refine ⟨[], IsWalk.nil s, rfl, ?_⟩
    intro k
    simp only [List.take_nil, walkWeight_nil]
    unfold intMax
    omega
  · rw [if_neg hie] at hi
    exact absurd rfl hi

theorem run_ok_feasible {g : BellmanFordAlgorithm} {st : Int} {d : List Int}
    (h : g.run (some st) = .ok d) : Feasible g.edges d := by
  simp only [run] at h
  split at h
  · exact absurd h (by simp)
  · rename_i hany
    rw [Bool.not_eq_true] at hany
    injection h with h
    subst h
    intro e he hsrc
    have hf := List.any_eq_false.mp hany e he
    unfold improves at hf
    simp only [decide_eq_true_eq] at hf
    push_neg at hf
    exact hf hsrc

theorem run_ok_eq {g : BellmanFordAlgorithm} {st : Int} {d : List Int}
    (h : g.run (some st) = .ok d) :
    d = rounds g.edges (g.total_vertices - 1)
      ((List.replicate g.total_vertices intMax).set st.toNat 0) := by
  simp only [run] at h
  split at h
  · exact absurd h (by simp)
  · injection h with h
    exact h.symm

theorem run_invariants {g : BellmanFordAlgorithm} {st : Int} {d : List Int}
    (h : g.run (some st) = .ok d) (hs : st.toNat < g.total_vertices) :
    BLe d ∧ WalkInv g.edges st.toNat d ∧
      (∀ i, d.getD i intMax ≤
        ((List.replicate g.total_vertices intMax).set st.toNat 0).getD i intMax) := by
  have heq := run_ok_eq h
  obtain ⟨j, _, hj⟩ := rounds_eq_passIter g.edges (g.total_vertices - 1)
    ((List.replicate g.total_vertices intMax).set st.toNat 0)
  rw [hj] at heq
  subst heq
  refine ⟨passIter_BLe j (d0_BLe hs), ?_, fun i => passIter_le _ j _ i⟩
  exact passIter_WalkInv (fun e he => he) j (d0_BLe hs) (d0_WalkInv hs)

theorem feasible_chain {E : List Edge} {d : List Int} (hf : Feasible E d) :
    ∀ {es : List Edge} {u v : Nat}, IsWalk E u v es → d.getD u intMax ≠ intMax →
      (∀ k, d.getD u intMax + walkWeight (es.take k) < intMax) →
      d.getD v intMax ≤ d.getD u intMax + walkWeight es := by
  intro es
  induction es with
  | nil =>
    intro u v hw _ _
    rw [isWalk_nil_inv hw]
    simp [walkWeight]
  | cons e t ih =>
    intro u v hw hu hsafe
    obtain ⟨he, hsrc, hwt⟩ := isWalk_cons_inv hw
    have hstep : d.getD e.destination intMax ≤ d.getD u intMax + e.weight := by
      have := hf e he (by rwa [hsrc])
      rwa [hsrc] at this
    have h1 : d.getD u intMax + e.weight < intMax := by
      have := hsafe 1
      simpa [walkWeight] using this
    have hdne : d.getD e.destination intMax ≠ intMax := by
      have : d.getD e.destination intMax < intMax := lt_of_le_of_lt hstep h1
      omega
    have hsafe2 : ∀ k, d.getD e.destination intMax + walkWeight (t.take k) < intMax := by
      intro k
      have hk := hsafe (k + 1)
      simp only [List.take_succ_cons, walkWeight_cons] at hk
      have : d.getD e.destination intMax + walkWeight (t.take k) ≤
          d.getD u intMax + (e.weight + walkWeight (t.take k)) := by omega
      omega
    have := ih hwt hdne hsafe2
    rw [walkWeight_cons]
    omega

theorem passD_cons (e : Edge) (t : List Edge) (d : List Int) :
    passD (e :: t) d = passD t (relax d e).1 := by
  rw [passD_eq, passD_eq, List.foldl_cons]

theorem passIter_length (es : List Edge) :
    ∀ (k : Nat) (d : List Int), (passIter es k d).length = d.length := by
  intro k
  induction k with
  | zero => intro d; rfl
  | succ m ih =>
    intro d
    show (passIter es m (passD es d)).length = d.length
    rw [ih, passD_length]

theorem passIter_succ_outer (es : List Edge) :
    ∀ (k : Nat) (d : List Int), passIter es (k + 1) d = passD es (passIter es k d) := by
  intro k
  induction k with
  | zero => intro d; rfl
  | succ m ih =>
    intro d
    show passIter es (m + 1) (passD es d) = _
    rw [ih (passD es d)]
    rfl

theorem passD_relaxes :
    ∀ {es : List Edge} {d : List Int} {e : Edge}, e ∈ es →
      d.getD e.source intMax ≠ intMax → BLe d → e.destination < d.length →
      (passD es d).getD e.destination intMax ≤ d.getD e.source intMax + e.weight := by
  intro es
  induction es with
  | nil =>
    intro d e he
    simp at he
  | cons f t ih =>
    intro d e he hsrc hle hdst
    rw [passD_cons]
    rcases List.mem_cons.mp he with hef | het
    · rw [← hef]
      have hrel : ((relax d e).1).getD e.destination intMax ≤
          d.getD e.source intMax + e.weight := by
        rw [relax_eq]
        split
        · rename_i hc
          simp only
          rw [getD_set_self d e.destination _ intMax hdst]
        · rename_i hc
          simp only
          push_neg at hc
          exact hc hsrc
      exact le_trans (passD_le t (relax d e).1 e.destination) hrel
    · have h1 : ((relax d f).1).getD e.source intMax ≤ d.getD e.source intMax :=
        relax_le d f e.source
      have h2 : d.getD e.source intMax < intMax :=
        lt_of_le_of_ne (hle e.source) hsrc
      have h3 : ((relax d f).1).getD e.source intMax ≠ intMax := by omega
      have h4 : BLe (relax d f).1 := relax_BLe hle f
      have h5 : e.destination < ((relax d f).1).length := by
        rw [relax_length]
        exact hdst
      have := ih het h3 h4 h5
      omega

theorem upper_zero {E : List Edge} {n s : Nat} (hs : s < n) :
    UpperInv E s 0 ((List.replicate n intMax).set s 0) := by
  intro i ws hw _ hlen
  have hnil : ws = [] := List.length_eq_zero.mp (Nat.le_zero.mp hlen)
  subst hnil
  have hi := isWalk_nil_inv hw
  rw [← hi, d0_getD hs s, if_pos rfl, walkWeight_nil]

theorem upper_step {E : List Edge} {n s : Nat} {d : List Int} {k : Nat}
    (hwf : ∀ e ∈ E, e.destination < n) (hdl : d.length = n) (hle : BLe d)
    (hup : UpperInv E s k d) : UpperInv E s (k + 1) (passD E d) := by
  intro i ws hw hsafe hlen
  by_cases hsh : ws.length ≤ k
  · exact le_trans (passD_le E d i) (hup i ws hw hsafe hsh)
  · push_neg at hsh
    have hne : ws ≠ [] := by
      intro hc
      rw [hc] at hsh
      simp at hsh
    obtain ⟨wsi, e, hws⟩ := (List.eq_nil_or_concat ws).resolve_left hne
    rw [hws, List.concat_eq_append] at hw hsafe hlen ⊢
    obtain ⟨mm, hw1, hw2⟩ := isWalk_append_inv hw
    obtain ⟨he, hes, hinv⟩ := isWalk_cons_inv hw2
    have hiz := isWalk_nil_inv hinv
    have hsafe1 : SafeWalk wsi := safeWalk_append_left hsafe
    have hwlen : wsi.length ≤ k := by
      simp only [List.length_append, List.length_cons, List.length_nil] at hlen
      omega
    have hwlt : walkWeight wsi < intMax := by
      have := hsafe wsi.length
      rwa [List.take_append_of_le_length (le_refl _),
        List.take_of_length_le (le_refl _)] at this
    have hm := hup mm wsi hw1 hsafe1 hwlen
    have hmne : d.getD e.source intMax ≠ intMax := by
      rw [hes]
      omega
    have hemem : e ∈ E := isWalk_mem hw e (by simp)
    have hrel := passD_relaxes hemem hmne hle (by rw [hdl]; exact hwf e hemem)
    rw [← hiz, walkWeight_append]
    have hje : walkWeight [e] = e.weight := by simp [walkWeight]
    rw [hje]
    rw [hes] at hrel
    omega

theorem upper_iter {E : List Edge} {n s : Nat} (hwf : ∀ e ∈ E, e.destination < n)
    (hs : s < n) :
    ∀ (k : Nat), UpperInv E s k (passIter E k ((List.replicate n intMax).set s 0)) := by
  intro k
  induction k with
  | zero => exact upper_zero hs
  | succ m ih =>
    rw [passIter_succ_outer]
    refine upper_step hwf ?_ ?_ ih
    · rw [passIter_length]
      simp
    · exact passIter_BLe m (d0_BLe hs)

theorem run_error_iff {g : BellmanFordAlgorithm} {st : Int} :
    g.run (some st) = .error .negativeWeightCycle ↔
      ∃ e ∈ g.edges, improves (rounds g.edges (g.total_vertices - 1)
        ((List.replicate g.total_vertices intMax).set st.toNat 0)) e = true := by
  simp only [run]
  split
  · rename_i hany
    exact iff_of_true rfl (List.any_eq_true.mp hany)
  · rename_i hany
    rw [Bool.not_eq_true, List.any_eq_false] at hany
    refine iff_of_false (by simp) ?_
    intro ⟨e, he, himp⟩
    exact (hany e he) himp

theorem run_error_negcycle {g : BellmanFordAlgorithm} {st : Int} (hwf : g.WF)
    (hs : st.toNat < g.total_vertices)
    (herr : g.run (some st) = .error .negativeWeightCycle) :
    ∃ y ds, IsNegCycle g.edges y ds ∧ Reaches g.edges st.toNat y := by
  obtain ⟨e, he, himp⟩ := run_error_iff.mp herr
  have hfull := rounds_error_full g.edges (g.total_vertices - 1)
    ((List.replicate g.total_vertices intMax).set st.toNat 0) ⟨e, he, himp⟩
  rw [hfull] at himp
  have hwfdest : ∀ f ∈ g.edges, f.destination < g.total_vertices :=
    fun f hf => (hwf f hf).2
  have hble : BLe (passIter g.edges (g.total_vertices - 1)
      ((List.replicate g.total_vertices intMax).set st.toNat 0)) :=
    passIter_BLe (g.total_vertices - 1) (d0_BLe hs)
  have hmemid : ∀ f ∈ g.edges, f ∈ g.edges := fun f hf => hf
  have hwinv := passIter_WalkInv hmemid (g.total_vertices - 1)
    (d0_BLe hs) (d0_WalkInv hs)
  have hup := upper_iter hwfdest hs (g.total_vertices - 1)
  unfold improves at himp
  rw [decide_eq_true_eq] at himp
  obtain ⟨hsrc, hlt⟩ := himp
  obtain ⟨ws, hws, hwt, hsafe⟩ := hwinv e.source hsrc
  have hwX : IsWalk g.edges st.toNat e.destination (ws ++ [e]) := hws.concat he rfl
  have hXw : walkWeight (ws ++ [e]) =
      (passIter g.edges (g.total_vertices - 1)
        ((List.replicate g.total_vertices intMax).set st.toNat 0)).getD e.source
        intMax + e.weight := by
    rw [walkWeight_append, hwt]
    simp [walkWeight]
  have hsafeX : SafeWalk (ws ++ [e]) := by
    refine safeWalk_snoc hsafe ?_
    rw [hXw]
    have := hble e.destination
    omega
  have hnodes := wNodes_lt hwfdest hs hwX
  have hn0 : 0 < g.total_vertices := lt_of_le_of_lt (Nat.zero_le _) hs
  rcases cutCycles hn0 (ws ++ [e]).length (le_refl _) hwX hsafeX hnodes with
    ⟨ys, hy1, hy2, hy3, hy4⟩ | ⟨x, cs, hc1, hc2, hc3, hc4⟩
  · have := hup e.destination ys hy1 hy2 (by omega)
    rw [hXw] at hy4
    omega
  · obtain ⟨y, ds, hcyc, hy⟩ := negWalkToCycle cs.length (le_refl _) hc1 hc2 hc3
    exact ⟨y, ds, hcyc,
      reaches_trans (wNodes_reach hwX hc4) (wNodes_reach hc1 hy)⟩

theorem run_ok_start_zero {g : BellmanFordAlgorithm} {st : Int} {d : List Int}
    (hs : st.toNat < g.total_vertices) (h : g.run (some st) = .ok d) :
    d.getD st.toNat intMax = 0 := by
  obtain ⟨hble, hwinv, hmono⟩ := run_invariants h hs
  have hfeas := run_ok_feasible h
  have hpos : (0 : Int) < intMax := by unfold intMax; omega
  have h0 : d.getD st.toNat intMax ≤ 0 := by
    have := hmono st.toNat
    rwa [d0_getD hs st.toNat, if_pos rfl] at this
  have hne : d.getD st.toNat intMax ≠ intMax := by omega
  obtain ⟨ws, hws, hwt, hsafe⟩ := hwinv st.toNat hne
  have hchain := feasible_chain hfeas hws hne ?_
  · rw [hwt] at hchain
    omega
  · intro k
    have := hsafe k
    omega

theorem run_ok_reaches {g : BellmanFordAlgorithm} {st : Int} {d : List Int}
    (hs : st.toNat < g.total_vertices) (h : g.run (some st) = .ok d) :
    ∀ v, d.getD v intMax ≠ intMax → Reaches g.edges st.toNat v := by
  obtain ⟨hble, hwinv, hmono⟩ := run_invariants h hs
  intro v hv
  obtain ⟨ws, hws, _, _⟩ := hwinv v hv
  exact ⟨ws, hws⟩

theorem run_length {g : BellmanFordAlgorithm} {st : Int} {d : List Int}
    (h : g.run (some st) = .ok d) : d.length = g.total_vertices := by
  rw [run_ok_eq h]
  obtain ⟨j, _, hj⟩ := rounds_eq_passIter g.edges (g.total_vertices - 1)
    ((List.replicate g.total_vertices intMax).set st.toNat 0)
  rw [hj, passIter_length]
  simp

end BellmanFordAlgorithm

theorem getD_mem {α : Type} {l : List α} {i : Nat} (d : α) (h : i < l.length) :
    l.getD i d ∈ l := by
  induction l generalizing i with
  | nil => simp at h
  | cons a t ih =>
    cases i with
    | zero => simp [List.getD]
    | succ j =>
      simp only [List.getD_cons_succ]
      exact List.mem_cons_of_mem a (ih (by simpa using h))

namespace FloydWarshallAlgorithm

theorem square_replicate (n : Nat) :
    Square n (List.replicate n (List.replicate n intMax)) := by
  refine ⟨by simp, ?_⟩
  intro row hrow
  rw [List.eq_of_mem_replicate hrow]
  simp

theorem square_mSet {n : Nat} {m : List (List Int)} (hsq : Square n m)
    (i j : Nat) (x : Int) : Square n (mSet m i j x) := by
  obtain ⟨hlen, hrows⟩ := hsq
  by_cases hi : i < m.length
  · refine ⟨by simpa [mSet] using hlen, ?_⟩
    intro row hrow
    rcases List.mem_or_eq_of_mem_set hrow with hmem | heq
    · exact hrows row hmem
    · rw [heq, List.length_set]
      exact hrows _ (getD_mem [] hi)
  · push_neg at hi
    unfold mSet
    rw [set_oob _ _ _ hi]
    exact ⟨hlen, hrows⟩

theorem mGet_mSet_self {n : Nat} {m : List (List Int)} (hsq : Square n m)
    {i j : Nat} (hi : i < n) (hj : j < n) (x : Int) : mGet (mSet m i j x) i j = x := by
  obtain ⟨hlen, hrows⟩ := hsq
  have him : i < m.length := by rw [hlen]; exact hi
  have hrl : (m.getD i []).length = n := hrows _ (getD_mem [] him)
  unfold mGet mSet
  rw [getD_set_self _ i _ [] him,
    getD_set_self _ j _ intMax (by rw [hrl]; exact hj)]

theorem mGet_mSet_ne {m : List (List Int)} {i j a b : Nat} (x : Int)
    (h : i ≠ a ∨ j ≠ b) : mGet (mSet m i j x) a b = mGet m a b := by
  unfold mGet mSet
  by_cases hai : a = i
  · rcases h with hia | hjb
    · exact absurd hai.symm hia
    · rw [hai]
      by_cases hi : i < m.length
      · rw [getD_set_self _ i _ [] hi,
          getD_set_ne _ b j _ intMax (fun hc => hjb hc.symm)]
      · push_neg at hi
        rw [set_oob _ _ _ hi]
  · rw [getD_set_ne _ a i _ [] hai]

theorem mGet_rep (n i j : Nat) :
    mGet (List.replicate n (List.replicate n intMax)) i j = intMax := by
  unfold mGet
  by_cases hi : i < n
  · rw [getD_replicate n i _ [] hi]
    by_cases hj : j < n
    · exact getD_replicate n j _ _ hj
    · exact getD_oob _ _ _ (by simpa using Nat.not_lt.mp hj)
  · rw [getD_oob (List.replicate n (List.replicate n intMax)) i []
      (by simpa using Nat.not_lt.mp hi)]
    rfl

theorem mSet_oobi {n : Nat} {m : List (List Int)} (hsq : Square n m) {i : Nat}
    (hi : n ≤ i) (j : Nat) (x : Int) : mSet m i j x = m := by
  unfold mSet
  rw [set_oob m i _ (by rw [hsq.1]; exact hi)]

theorem mGet_mSet_oobj {n : Nat} {m : List (List Int)} (hsq : Square n m) {j : Nat}
    (hj : n ≤ j) (i a b : Nat) (x : Int) : mGet (mSet m i j x) a b = mGet m a b := by
  obtain ⟨hlen, hrows⟩ := hsq
  by_cases hi : i < m.length
  · have hrl : (m.getD i []).length = n := hrows _ (getD_mem [] hi)
    unfold mSet
    rw [set_oob (m.getD i []) j x (by rw [hrl]; exact hj)]
    unfold mGet
    by_cases hai : a = i
    · rw [hai, getD_set_self _ i _ [] hi]
    · rw [getD_set_ne _ a i _ [] hai]
  · push_neg at hi
    unfold mSet
    rw [set_oob m i _ hi]

theorem square_initial_fold {n : Nat} :
    ∀ (es : List (Nat × Nat × Int)) (m : List (List Int)), Square n m →
      Square n (es.foldl (fun m e => mSet m e.1 e.2.1 e.2.2) m) := by
  intro es
  induction es with
  | nil => intro m h; exact h
  | cons e t ih => intro m h; exact ih _ (square_mSet h _ _ _)

theorem initial_fold_getD {n : Nat} {u v : Nat} (hu : u < n) (hv : v < n) :
    ∀ (es : List (Nat × Nat × Int)) (m : List (List Int)), Square n m →
      mGet (es.foldl (fun m e => mSet m e.1 e.2.1 e.2.2) m) u v =
        (lastW es u v).getD (mGet m u v) := by
  intro es
  induction es using List.reverseRecOn with
  | nil =>
    intro m _
    simp [lastW]
  | append_singleton t e ih =>
    intro m hsq
    rw [List.foldl_append]
    simp only [List.foldl_cons, List.foldl_nil]
    have hsq2 := square_initial_fold t m hsq
    by_cases hm : e.1 = u ∧ e.2.1 = v
    · rw [hm.1, hm.2, mGet_mSet_self hsq2 hu hv]
      unfold lastW
      rw [List.filter_append]
      have hfe : List.filter (fun e => decide (e.1 = u ∧ e.2.1 = v)) [e] = [e] := by
        simp [List.filter, hm.1, hm.2]
      rw [hfe, List.getLast?_concat]
      rfl
    · have hne : e.1 ≠ u ∨ e.2.1 ≠ v := by
        rcases not_and_or.mp hm with h | h
        · exact Or.inl h
        · exact Or.inr h
      rw [mGet_mSet_ne _ hne, ih m hsq]
      unfold lastW
      rw [List.filter_append]
      have hfe : List.filter (fun e => decide (e.1 = u ∧ e.2.1 = v)) [e] = [] := by
        simp [List.filter, hm]
      rw [hfe, List.append_nil]

theorem diag_fold_getD {n : Nat} {a b : Nat} :
    ∀ (l : List Nat) (m : List (List Int)), Square n m → (∀ v ∈ l, v < n) →
      mGet (l.foldl (fun m v => mSet m v v 0) m) a b =
        if a = b ∧ a ∈ l then 0 else mGet m a b := by
  intro l
  induction l with
  | nil =>
    intro m _ _
    simp
  | cons v t ih =>
    intro m hsq hb
    simp only [List.foldl_cons]
    rw [ih _ (square_mSet hsq _ _ _) (fun x hx => hb x (by simp [hx]))]
    by_cases hab : a = b
    · by_cases hat : a ∈ t
      · rw [if_pos ⟨hab, hat⟩, if_pos ⟨hab, by simp [hat]⟩]
      · rw [if_neg (fun hc => hat hc.2)]
        by_cases hav : a = v
        · rw [if_pos ⟨hab, by simp [hav]⟩, ← hav, ← hab]
          exact mGet_mSet_self hsq (hav ▸ hb v (by simp)) (hav ▸ hb v (by simp)) 0
        · rw [if_neg (fun hc => hat ((List.mem_cons.mp hc.2).resolve_left hav))]
          exact mGet_mSet_ne _ (Or.inl (fun hc => hav hc.symm))
    · rw [if_neg (fun hc => hab hc.1), if_neg (fun hc => hab hc.1)]
      refine mGet_mSet_ne _ ?_
      by_cases hva : v = a
      · exact Or.inr (fun hc => hab ((hva.symm.trans hc).symm ▸ rfl))
      · exact Or.inl hva

theorem square_initial (g : FloydWarshallAlgorithm) : Square g.total_nodes (initial g) :=
  square_initial_fold g.edges _ (square_replicate g.total_nodes)

theorem initial_lastW (g : FloydWarshallAlgorithm) {u v : Nat}
    (hu : u < g.total_nodes) (hv : v < g.total_nodes) :
    mGet (initial g) u v = (lastW g.edges u v).getD intMax := by
  unfold initial
  rw [initial_fold_getD hu hv g.edges _ (square_replicate g.total_nodes),
    mGet_rep]

theorem withDiag_getD (g : FloydWarshallAlgorithm) (a b : Nat) :
    mGet (withDiag g) a b =
      if a = b ∧ a < g.total_nodes then 0 else mGet (initial g) a b := by
  unfold withDiag
  rw [diag_fold_getD (List.range g.total_nodes) (initial g) (square_initial g)
    (by intro x hx; exact List.mem_range.mp hx)]
  simp [List.mem_range]

theorem square_diag_fold {n : Nat} :
    ∀ (l : List Nat) (m : List (List Int)), Square n m →
      Square n (l.foldl (fun m v => mSet m v v 0) m) := by
  intro l
  induction l with
  | nil => intro m h; exact h
  | cons v t ih => intro m h; exact ih _ (square_mSet h _ _ _)

theorem square_withDiag (g : FloydWarshallAlgorithm) :
    Square g.total_nodes (withDiag g) :=
  square_diag_fold (List.range g.total_nodes) (initial g) (square_initial g)

theorem square_fwStep {n : Nat} {m : List (List Int)} (hsq : Square n m)
    (k i j : Nat) : Square n (fwStep m k i j) := by
  unfold fwStep
  split
  · exact square_mSet hsq _ _ _
  · exact hsq

theorem fwStep_le {n : Nat} {m : List (List Int)} (hsq : Square n m) {i j : Nat}
    (hi : i < n) (hj : j < n) (k a b : Nat) :
    mGet (fwStep m k i j) a b ≤ mGet m a b := by
  unfold fwStep
  split
  · by_cases hab : a = i ∧ b = j
    · rw [hab.1, hab.2, mGet_mSet_self hsq hi hj]
      exact min_le_left _ _
    · rcases not_and_or.mp hab with h | h
      · rw [mGet_mSet_ne _ (Or.inl (fun hc => h hc.symm))]
      · rw [mGet_mSet_ne _ (Or.inr (fun hc => h hc.symm))]
  · exact le_refl _

theorem finv_fwStep {E : List Edge} {n : Nat} {m : List (List Int)}
    (hsq : Square n m) (hinv : FInv E n m) {k i j : Nat} (hk : k < n) (hi : i < n)
    (hj : j < n) : FInv E n (fwStep m k i j) := by
  unfold fwStep
  split
  · rename_i hc
    intro a b ha hb
    by_cases hab : a = i ∧ b = j
    · rw [hab.1, hab.2, mGet_mSet_self hsq hi hj]
      rcases le_total (mGet m i j) (mGet m i k + mGet m k j) with hle | hle
      · rw [min_eq_left hle]
        exact hinv i j hi hj
      · rw [min_eq_right hle]
        obtain ⟨w1, hw1, hwt1⟩ := (hinv i k hi hk).resolve_left hc.1
        obtain ⟨w2, hw2, hwt2⟩ := (hinv k j hk hj).resolve_left hc.2
        exact Or.inr ⟨w1 ++ w2, hw1.append hw2,
          by rw [walkWeight_append, hwt1, hwt2]⟩
    · rcases not_and_or.mp hab with h | h
      · rw [mGet_mSet_ne _ (Or.inl (fun hc2 => h hc2.symm))]
        exact hinv a b ha hb
      · rw [mGet_mSet_ne _ (Or.inr (fun hc2 => h hc2.symm))]
        exact hinv a b ha hb
  · exact hinv

theorem fw_inner_fold {E : List Edge} {n : Nat} {k i : Nat} (hk : k < n) (hi : i < n) :
    ∀ (l : List Nat) (m : List (List Int)), (∀ j ∈ l, j < n) →
      Square n m ∧ FInv E n m →
      Square n (l.foldl (fun m j => fwStep m k i j) m) ∧
        FInv E n (l.foldl (fun m j => fwStep m k i j) m) := by
  intro l
  induction l with
  | nil => intro m _ h; exact h
  | cons j t ih =>
    intro m hb h
    simp only [List.foldl_cons]
    exact ih _ (fun x hx => hb x (by simp [hx]))
      ⟨square_fwStep h.1 _ _ _, finv_fwStep h.1 h.2 hk hi (hb j (by simp))⟩

theorem fw_inner_le {n : Nat} {k i a b : Nat} (hi : i < n) :
    ∀ (l : List Nat) (m : List (List Int)), (∀ j ∈ l, j < n) → Square n m →
      mGet (l.foldl (fun m j => fwStep m k i j) m) a b ≤ mGet m a b := by
  intro l
  induction l with
  | nil => intro m _ _; exact le_refl _
  | cons j t ih =>
    intro m hb hsq
    simp only [List.foldl_cons]
    exact le_trans
      (ih _ (fun x hx => hb x (by simp [hx])) (square_fwStep hsq _ _ _))
      (fwStep_le hsq hi (hb j (by simp)) k a b)

theorem fw_mid_fold {E : List Edge} {n : Nat} {k : Nat} (hk : k < n) :
    ∀ (l : List Nat) (m : List (List Int)), (∀ i ∈ l, i < n) →
      Square n m ∧ FInv E n m →
      Square n (l.foldl (fun m i =>
          (List.range n).foldl (fun m j => fwStep m k i j) m) m) ∧
        FInv E n (l.foldl (fun m i =>
          (List.range n).foldl (fun m j => fwStep m k i j) m) m) := by
  intro l
  induction l with
  | nil => intro m _ h; exact h
  | cons i t ih =>
    intro m hb h
    simp only [List.foldl_cons]
    exact ih _ (fun x hx => hb x (by simp [hx]))
      (fw_inner_fold hk (hb i (by simp)) (List.range n) m
        (fun x hx => List.mem_range.mp hx) h)

theorem square_inner_fold {n k i : Nat} :
    ∀ (l : List Nat) (m : List (List Int)), Square n m →
      Square n (l.foldl (fun m j => fwStep m k i j) m) := by
  intro l
  induction l with
  | nil => intro m h; exact h
  | cons j t ih =>
    intro m h
    simp only [List.foldl_cons]
    exact ih _ (square_fwStep h _ _ _)

theorem square_mid_fold {n k : Nat} :
    ∀ (l : List Nat) (m : List (List Int)), Square n m →
      Square n (l.foldl (fun m i =>
        (List.range n).foldl (fun m j => fwStep m k i j) m) m) := by
  intro l
  induction l with
  | nil => intro m h; exact h
  | cons i t ih =>
    intro m h
    simp only [List.foldl_cons]
    exact ih _ (square_inner_fold (List.range n) m h)

theorem fw_mid_le {n : Nat} {k a b : Nat} :
    ∀ (l : List Nat) (m : List (List Int)), (∀ i ∈ l, i < n) → Square n m →
      mGet (l.foldl (fun m i =>
        (List.range n).foldl (fun m j => fwStep m k i j) m) m) a b ≤ mGet m a b := by
  intro l
  induction l with
  | nil => intro m _ _; exact le_refl _
  | cons i t ih =>
    intro m hb hsq
    simp only [List.foldl_cons]
    refine le_trans (ih _ (fun x hx => hb x (by simp [hx])) ?_) ?_
    · exact square_inner_fold (List.range n) m hsq
    · exact fw_inner_le (hb i (by simp)) (List.range n) m
        (fun x hx => List.mem_range.mp hx) hsq

theorem fw_outer_fold {E : List Edge} {n : Nat} :
    ∀ (l : List Nat) (m : List (List Int)), (∀ k ∈ l, k < n) →
      Square n m ∧ FInv E n m →
      Square n (l.foldl (fwPass n) m) ∧ FInv E n (l.foldl (fwPass n) m) := by
  intro l
  induction l with
  | nil => intro m _ h; exact h
  | cons k t ih =>
    intro m hb h
    simp only [List.foldl_cons]
    exact ih _ (fun x hx => hb x (by simp [hx]))
      (fw_mid_fold (hb k (by simp)) (List.range n) m
        (fun x hx => List.mem_range.mp hx) h)

theorem fw_outer_le {n : Nat} {a b : Nat} :
    ∀ (l : List Nat) (m : List (List Int)), (∀ k ∈ l, k < n) → Square n m →
      mGet (l.foldl (fwPass n) m) a b ≤ mGet m a b := by
  intro l
  induction l with
  | nil => intro m _ _; exact le_refl _
  | cons k t ih =>
    intro m hb hsq
    simp only [List.foldl_cons]
    refine le_trans (ih _ (fun x hx => hb x (by simp [hx])) ?_) ?_
    · exact square_mid_fold (List.range n) m hsq
    · exact fw_mid_le (List.range n) m (fun x hx => List.mem_range.mp hx) hsq

theorem run_ok_eqM {g : FloydWarshallAlgorithm} {st : Option Nat}
    {M : List (List Int)} (h : g.run st = .ok M) :
    M = (List.range g.total_nodes).foldl (fwPass g.total_nodes) (withDiag g) := by
  unfold run at h
  injection h with h
  exact h.symm

theorem finv_initial_fold {E : List Edge} {n : Nat} :
    ∀ (es : List (Nat × Nat × Int)) (m : List (List Int)),
      (∀ e ∈ es, (⟨e.1, e.2.1, e.2.2⟩ : Edge) ∈ E) → Square n m → FInv E n m →
      FInv E n (es.foldl (fun m e => mSet m e.1 e.2.1 e.2.2) m) := by
  intro es
  induction es with
  | nil => intro m _ _ h; exact h
  | cons e t ih =>
    intro m hmem hsq hinv
    simp only [List.foldl_cons]
    refine ih _ (fun x hx => hmem x (by simp [hx])) (square_mSet hsq _ _ _) ?_
    by_cases hsrc : e.1 < n
    · by_cases hdst : e.2.1 < n
      · intro a b ha hb
        by_cases hab : a = e.1 ∧ b = e.2.1
        · rw [hab.1, hab.2, mGet_mSet_self hsq hsrc hdst]
          refine Or.inr ⟨[⟨e.1, e.2.1, e.2.2⟩], ?_, by simp [walkWeight]⟩
          exact IsWalk.cons _ (hmem e (by simp)) (IsWalk.nil _)
        · rcases not_and_or.mp hab with h | h
          · rw [mGet_mSet_ne _ (Or.inl (fun hc => h hc.symm))]
            exact hinv a b ha hb
          · rw [mGet_mSet_ne _ (Or.inr (fun hc => h hc.symm))]
            exact hinv a b ha hb
      · intro a b ha hb
        rw [mGet_mSet_oobj hsq (Nat.not_lt.mp hdst) _ _ _ _]
        exact hinv a b ha hb
    · rw [mSet_oobi hsq (Nat.not_lt.mp hsrc) _ _]
      exact hinv

theorem finv_diag_fold {E : List Edge} {n : Nat} :
    ∀ (l : List Nat) (m : List (List Int)), (∀ v ∈ l, v < n) →
      Square n m → FInv E n m →
      FInv E n (l.foldl (fun m v => mSet m v v 0) m) := by
  intro l
  induction l with
  | nil => intro m _ _ h; exact h
  | cons v t ih =>
    intro m hb hsq hinv
    simp only [List.foldl_cons]
    refine ih _ (fun x hx => hb x (by simp [hx])) (square_mSet hsq _ _ _) ?_
    have hv := hb v (by simp)
    intro a b ha hbn
    by_cases hab : a = v ∧ b = v
    · rw [hab.1, hab.2, mGet_mSet_self hsq hv hv]
      exact Or.inr ⟨[], IsWalk.nil v, rfl⟩
    · rcases not_and_or.mp hab with h | h
      · rw [mGet_mSet_ne _ (Or.inl (fun hc => h hc.symm))]
        exact hinv a b ha hbn
      · rw [mGet_mSet_ne _ (Or.inr (fun hc => h hc.symm))]
        exact hinv a b ha hbn

theorem finv_withDiag (g : FloydWarshallAlgorithm) :
    FInv (fwEdges g) g.total_nodes (withDiag g) := by
  unfold withDiag
  refine finv_diag_fold (List.range g.total_nodes) (initial g)
    (fun x hx => List.mem_range.mp hx) (square_initial g) ?_
  unfold initial
  refine finv_initial_fold g.edges _ ?_ (square_replicate g.total_nodes) ?_
  · intro e he
    unfold fwEdges
    exact List.mem_map.mpr ⟨e, he, rfl⟩
  · intro a b _ _
    exact Or.inl (mGet_rep g.total_nodes a b)

theorem run_square {g : FloydWarshallAlgorithm} {st : Option Nat}
    {M : List (List Int)} (h : g.run st = .ok M) : Square g.total_nodes M := by
  rw [run_ok_eqM h]
  exact (fw_outer_fold (E := fwEdges g) (List.range g.total_nodes) _
    (fun x hx => List.mem_range.mp hx)
    ⟨square_withDiag g, finv_withDiag g⟩).1

theorem run_finv {g : FloydWarshallAlgorithm} {st : Option Nat}
    {M : List (List Int)} (h : g.run st = .ok M) :
    FInv (fwEdges g) g.total_nodes M := by
  rw [run_ok_eqM h]
  exact (fw_outer_fold (List.range g.total_nodes) _
    (fun x hx => List.mem_range.mp hx)
    ⟨square_withDiag g, finv_withDiag g⟩).2

theorem run_diag_le {g : FloydWarshallAlgorithm} {st : Option Nat}
    {M : List (List Int)} (h : g.run st = .ok M) {v : Nat} (hv : v < g.total_nodes) :
    mGet M v v ≤ 0 := by
  rw [run_ok_eqM h]
  have h1 := fw_outer_le (a := v) (b := v) (List.range g.total_nodes) (withDiag g)
    (fun x hx => List.mem_range.mp hx) (square_withDiag g)
  have h2 : mGet (withDiag g) v v = 0 := by
    rw [withDiag_getD]
    simp [hv]
  exact le_trans h1 (le_of_eq h2)

theorem run_diag_walk {g : FloydWarshallAlgorithm} {st : Option Nat}
    {M : List (List Int)} (h : g.run st = .ok M) {v : Nat} (hv : v < g.total_nodes)
    (hne : mGet M v v ≠ 0) :
    ∃ ws, ws ≠ [] ∧ IsWalk (fwEdges g) v v ws ∧ walkWeight ws < 0 := by
  have hle := run_diag_le h hv
  have hlt : mGet M v v < 0 := lt_of_le_of_ne hle hne
  have hmax : mGet M v v ≠ intMax := by
    have : (0 : Int) < intMax := by unfold intMax; omega
    omega
  obtain ⟨ws, hw, hwt⟩ := (run_finv h v v hv hv).resolve_left hmax
  refine ⟨ws, ?_, hw, by omega⟩
  intro hc
  rw [hc, walkWeight_nil] at hwt
  omega

end FloydWarshallAlgorithm

namespace DijkstraAlgorithm

theorem lookupA_mem {β : Type} : ∀ {l : List (Nat × β)} {k : Nat} {b : β},
    lookupA l k = some b → (k, b) ∈ l := by
  intro l
  induction l with
  | nil => intro k b h; simp [lookupA] at h
  | cons p t ih =>
    intro k b h
    unfold lookupA at h
    split at h
    · rename_i hpk
      injection h with h
      simp [← hpk, ← h]
    · exact List.mem_cons_of_mem p (ih h)

theorem mem_lookupA {β : Type} : ∀ {l : List (Nat × β)} {k : Nat} {b : β},
    (keys l).Nodup → (k, b) ∈ l → lookupA l k = some b := by
  intro l
  induction l with
  | nil => intro k b _ h; simp at h
  | cons p t ih =>
    intro k b hnd hm
    have hnd' : (p.1 :: keys t).Nodup := by
      simpa only [keys, List.map_cons] using hnd
    obtain ⟨hp, hnd2⟩ := List.nodup_cons.mp hnd'
    rcases List.mem_cons.mp hm with heq | hmt
    · rw [← heq]
      simp [lookupA]
    · unfold lookupA
      split
      · rename_i hpk
        exfalso
        refine hp ?_
        rw [hpk]
        exact List.mem_map.mpr ⟨(k, b), hmt, rfl⟩
      · exact ih hnd2 hmt

theorem lookupA_eq_none {β : Type} : ∀ {l : List (Nat × β)} {k : Nat},
    lookupA l k = none ↔ k ∉ keys l := by
  intro l
  induction l with
  | nil => intro k; simp [lookupA, keys]
  | cons p t ih =>
    intro k
    unfold lookupA
    split
    · rename_i hpk
      simp only [keys, List.map_cons, List.mem_cons]
      constructor
      · intro h; exact absurd h (by simp)
      · intro h; exact absurd (Or.inl hpk.symm) h
    · rename_i hpk
      simp only [keys, List.map_cons, List.mem_cons] at ih ⊢
      rw [ih]
      constructor
      · intro h hc
        rcases hc with hc | hc
        · exact hpk hc.symm
        · exact h hc
      · intro h hc
        exact h (Or.inr hc)

theorem lookupA_insertA_self {β : Type} : ∀ (l : List (Nat × β)) (k : Nat) (b : β),
    lookupA (insertA l k b) k = some b := by
  intro l
  induction l with
  | nil => intro k b; simp [insertA, lookupA]
  | cons p t ih =>
    intro k b
    unfold insertA
    split
    · simp [lookupA]
    · rename_i hpk
      unfold lookupA
      rw [if_neg hpk]
      exact ih k b

theorem lookupA_insertA_ne {β : Type} : ∀ (l : List (Nat × β)) {k k' : Nat} (b : β),
    k' ≠ k → lookupA (insertA l k b) k' = lookupA l k' := by
  intro l
  induction l with
  | nil =>
    intro k k' b h
    simp only [insertA, lookupA]
    rw [if_neg (fun hc => h hc.symm)]
  | cons p t ih =>
    intro k k' b h
    unfold insertA
    split
    · rename_i hpk
      show lookupA ((k, b) :: t) k' = lookupA (p :: t) k'
      unfold lookupA
      rw [if_neg (fun hc => h hc.symm),
        if_neg (fun hc => h (hc.symm.trans hpk))]
    · show lookupA (p :: insertA t k b) k' = lookupA (p :: t) k'
      unfold lookupA
      split
      · rfl
      · exact ih b h

theorem keys_insertA {β : Type} : ∀ (l : List (Nat × β)) (k : Nat) (b : β),
    keys (insertA l k b) = if k ∈ keys l then keys l else keys l ++ [k] := by
  intro l
  induction l with
  | nil => intro k b; simp [insertA, keys]
  | cons p t ih =>
    intro k b
    unfold insertA
    split
    · rename_i hpk
      have hk : k ∈ keys (p :: t) := by
        simp only [keys, List.map_cons]
        exact List.mem_cons.mpr (Or.inl hpk.symm)
      rw [if_pos hk]
      simp [keys, hpk]
    · rename_i hpk
      have hstep : keys (p :: insertA t k b) = p.1 :: keys (insertA t k b) := by
        simp [keys]
      rw [hstep, ih k b]
      have hmemiff : k ∈ keys (p :: t) ↔ k ∈ keys t := by
        simp only [keys, List.map_cons, List.mem_cons]
        constructor
        · intro h
          rcases h with h | h
          · exact absurd h.symm hpk
          · exact h
        · intro h
          exact Or.inr h
      by_cases hkt : k ∈ keys t
      · rw [if_pos hkt, if_pos (hmemiff.mpr hkt)]
        simp [keys]
      · rw [if_neg hkt, if_neg (fun hc => hkt (hmemiff.mp hc))]
        simp [keys]

theorem nodup_keys_insertA {β : Type} {l : List (Nat × β)} (k : Nat) (b : β)
    (h : (keys l).Nodup) : (keys (insertA l k b)).Nodup := by
  rw [keys_insertA]
  split
  · exact h
  · rename_i hk
    refine List.nodup_append.mpr ⟨h, List.nodup_singleton k, ?_⟩
    intro x hx hmem
    rw [List.mem_singleton] at hmem
    rw [hmem] at hx
    exact hk hx

theorem mem_insertA {β : Type} : ∀ {l : List (Nat × β)} {k : Nat} {b : β}
    {p : Nat × β}, (keys l).Nodup → (p ∈ insertA l k b ↔
      p = (k, b) ∨ (p ∈ l ∧ p.1 ≠ k)) := by
  intro l
  induction l with
  | nil =>
    intro k b p _
    simp [insertA]
  | cons q t ih =>
    intro k b p hnd
    have hnd' : (q.1 :: keys t).Nodup := by
      simpa only [keys, List.map_cons] using hnd
    obtain ⟨hq, hnd2'⟩ := List.nodup_cons.mp hnd'
    unfold insertA
    split
    · rename_i hqk
      simp only [List.mem_cons]
      constructor
      · intro h
        rcases h with h | h
        · exact Or.inl h
        · refine Or.inr ⟨Or.inr h, ?_⟩
          intro hc
          refine hq ?_
          rw [hqk, ← hc]
          exact List.mem_map.mpr ⟨p, h, rfl⟩
      · intro h
        rcases h with h | h
        · exact Or.inl h
        · rcases h.1 with h1 | h1
          · exfalso
            exact h.2 (by rw [h1, hqk])
          · exact Or.inr h1
    · rename_i hqk
      simp only [List.mem_cons]
      rw [ih hnd2']
      constructor
      · intro h
        rcases h with h | h | h
        · refine Or.inr ⟨Or.inl h, ?_⟩
          rw [h]
          exact fun hc => hqk hc
        · exact Or.inl h
        · exact Or.inr ⟨Or.inr h.1, h.2⟩
      · intro h
        rcases h with h | ⟨h1 | h1, h2⟩
        · exact Or.inr (Or.inl h)
        · exact Or.inl h1
        · exact Or.inr (Or.inr ⟨h1, h2⟩)

theorem sum_insertA_update {l : List (Nat × Nat)} {k old : Nat} (b : Nat)
    (hnd : (keys l).Nodup) (h : lookupA l k = some old) :
    ((insertA l k b).map Prod.snd).sum + old = (l.map Prod.snd).sum + b := by
  induction l with
  | nil => simp [lookupA] at h
  | cons p t ih =>
    have hnd' : (p.1 :: keys t).Nodup := by
      simpa only [keys, List.map_cons] using hnd
    obtain ⟨hp, hnd2⟩ := List.nodup_cons.mp hnd'
    unfold lookupA at h
    unfold insertA
    split
    · rename_i hpk
      rw [if_pos hpk] at h
      injection h with h
      simp only [List.map_cons, List.sum_cons]
      omega
    · rename_i hpk
      rw [if_neg hpk] at h
      simp only [List.map_cons, List.sum_cons]
      have := ih hnd2 h
      omega

theorem sum_insertA_new {l : List (Nat × Nat)} {k : Nat} (b : Nat)
    (h : lookupA l k = none) :
    ((insertA l k b).map Prod.snd).sum = (l.map Prod.snd).sum + b := by
  induction l with
  | nil => simp [insertA]
  | cons p t ih =>
    unfold lookupA at h
    split at h
    · exact absurd h (by simp)
    · rename_i hpk
      unfold insertA
      rw [if_neg hpk]
      simp only [List.map_cons, List.sum_cons]
      rw [ih h]
      omega

theorem popTop_none : ∀ {l : List (Nat × Nat)}, popTop l = none ↔ l = [] := by
  intro l
  cases l with
  | nil => simp [popTop]
  | cons p t =>
    simp only [popTop]
    constructor
    · intro h
      exfalso
      split at h
      · simp at h
      · split at h <;> simp at h
    · intro h
      exact absurd h (by simp)

theorem popTop_perm : ∀ {l : List (Nat × Nat)} {q : Nat × Nat}
    {r : List (Nat × Nat)}, popTop l = some (q, r) → l.Perm (q :: r) := by
  intro l
  induction l with
  | nil => intro q r h; simp [popTop] at h
  | cons p t ih =>
    intro q r h
    unfold popTop at h
    split at h
    · rename_i hnone
      rw [popTop_none.mp hnone]
      injection h with h
      obtain ⟨h1, h2⟩ := Prod.mk.inj h
      rw [← h1, ← h2]
    · rename_i q' r' hsome
      split at h
      · injection h with h
        obtain ⟨h1, h2⟩ := Prod.mk.inj h
        rw [← h1, ← h2]
        have hperm := ih hsome
        exact (hperm.cons p).trans (List.Perm.swap q' p r')
      · injection h with h
        obtain ⟨h1, h2⟩ := Prod.mk.inj h
        rw [← h1, ← h2]

theorem relaxStep_cases (cost : Nat) (st : DState) (nw : Nat × Nat) :
    (relaxStep cost st nw = st ∧
      ∃ dv, lookupA st.dist nw.1 = some dv ∧ dv ≤ cost + nw.2) ∨
    (relaxStep cost st nw =
        ⟨insertA st.dist nw.1 (cost + nw.2), st.queue ++ [(cost + nw.2, nw.1)]⟩ ∧
      ∀ dv, lookupA st.dist nw.1 = some dv → cost + nw.2 < dv) := by
  unfold relaxStep
  split
  · rename_i hc
    right
    refine ⟨rfl, ?_⟩
    intro dv hdv
    rw [hdv] at hc
    simpa using hc
  · rename_i hc
    left
    refine ⟨rfl, ?_⟩
    cases hl : lookupA st.dist nw.1 with
    | none =>
      rw [hl] at hc
      simp at hc
    | some dv =>
      rw [hl] at hc
      simp only [decide_eq_true_eq] at hc
      exact ⟨dv, rfl, Nat.le_of_not_lt hc⟩

theorem relaxN_nil (cost : Nat) (st : DState) : relaxN cost st [] = st := rfl

theorem relaxN_cons (cost : Nat) (st : DState) (nw : Nat × Nat)
    (t : List (Nat × Nat)) :
    relaxN cost st (nw :: t) = relaxN cost (relaxStep cost st nw) t := rfl

theorem relaxStep_lookup_mono {cost : Nat} {st : DState} {nw : Nat × Nat}
    {x dv : Nat} (h : lookupA st.dist x = some dv) :
    ∃ dv', lookupA (relaxStep cost st nw).dist x = some dv' ∧ dv' ≤ dv := by
  rcases relaxStep_cases cost st nw with ⟨heq, _⟩ | ⟨heq, hupd⟩
  · rw [heq]
    exact ⟨dv, h, le_refl dv⟩
  · rw [heq]
    by_cases hx : x = nw.1
    · rw [hx]
      rw [hx] at h
      exact ⟨cost + nw.2, lookupA_insertA_self _ _ _, le_of_lt (hupd dv h)⟩
    · rw [lookupA_insertA_ne _ _ hx]
      exact ⟨dv, h, le_refl dv⟩

theorem relaxN_lookup_mono :
    ∀ (nbrs : List (Nat × Nat)) (cost : Nat) (st : DState) (x dv : Nat),
      lookupA st.dist x = some dv →
      ∃ dv', lookupA (relaxN cost st nbrs).dist x = some dv' ∧ dv' ≤ dv := by
  intro nbrs
  induction nbrs with
  | nil => intro cost st x dv h; exact ⟨dv, h, le_refl dv⟩
  | cons nw t ih =>
    intro cost st x dv h
    rw [relaxN_cons]
    obtain ⟨dv1, h1, hle1⟩ := @relaxStep_lookup_mono cost st nw x dv h
    obtain ⟨dv2, h2, hle2⟩ := ih cost _ x dv1 h1
    exact ⟨dv2, h2, le_trans hle2 hle1⟩

theorem relaxN_queue_ext :
    ∀ (nbrs : List (Nat × Nat)) (cost : Nat) (st : DState),
      ∃ ext, (relaxN cost st nbrs).queue = st.queue ++ ext := by
  intro nbrs
  induction nbrs with
  | nil => intro cost st; exact ⟨[], by simp [relaxN_nil]⟩
  | cons nw t ih =>
    intro cost st
    rw [relaxN_cons]
    obtain ⟨ext, hext⟩ := ih cost (relaxStep cost st nw)
    rcases relaxStep_cases cost st nw with ⟨heq, _⟩ | ⟨heq, _⟩
    · have hq : (relaxStep cost st nw).queue = st.queue := by rw [heq]
      rw [hq] at hext
      exact ⟨ext, hext⟩
    · have hq : (relaxStep cost st nw).queue =
          st.queue ++ [(cost + nw.2, nw.1)] := by rw [heq]
      rw [hq] at hext
      exact ⟨(cost + nw.2, nw.1) :: ext, by simpa [List.append_assoc] using hext⟩

theorem relaxN_keep_small :
    ∀ (nbrs : List (Nat × Nat)) (cost : Nat) (st : DState) {z c : Nat},
      c ≤ cost → lookupA st.dist z = some c →
      lookupA (relaxN cost st nbrs).dist z = some c := by
  intro nbrs
  induction nbrs with
  | nil => intro cost st z c _ h; exact h
  | cons nw t ih =>
    intro cost st z c hc h
    rw [relaxN_cons]
    rcases relaxStep_cases cost st nw with ⟨heq, _⟩ | ⟨heq, hupd⟩
    · rw [heq]
      exact ih cost st hc h
    · by_cases hz : z = nw.1
      · exfalso
        rw [hz] at h
        have := hupd c h
        omega
      · refine ih cost _ hc ?_
        rw [heq]
        show lookupA (insertA st.dist nw.1 (cost + nw.2)) z = some c
        rw [lookupA_insertA_ne _ _ hz]
        exact h

theorem relaxN_nodup :
    ∀ (nbrs : List (Nat × Nat)) (cost : Nat) (st : DState),
      (keys st.dist).Nodup → (keys (relaxN cost st nbrs).dist).Nodup := by
  intro nbrs
  induction nbrs with
  | nil => intro cost st h; exact h
  | cons nw t ih =>
    intro cost st h
    rw [relaxN_cons]
    refine ih cost _ ?_
    rcases relaxStep_cases cost st nw with ⟨heq, _⟩ | ⟨heq, _⟩
    · rw [heq]; exact h
    · rw [heq]
      exact nodup_keys_insertA _ _ h

theorem relaxN_keys_sub :
    ∀ (nbrs : List (Nat × Nat)) (cost : Nat) (st : DState),
      ∀ x ∈ keys (relaxN cost st nbrs).dist,
        x ∈ keys st.dist ∨ x ∈ nbrs.map Prod.fst := by
  intro nbrs
  induction nbrs with
  | nil => intro cost st x hx; exact Or.inl hx
  | cons nw t ih =>
    intro cost st x hx
    rw [relaxN_cons] at hx
    rcases ih cost _ x hx with h1 | h1
    · rcases relaxStep_cases cost st nw with ⟨heq, _⟩ | ⟨heq, _⟩
      · have hd : (relaxStep cost st nw).dist = st.dist := by rw [heq]
        rw [hd] at h1
        exact Or.inl h1
      · have hd : (relaxStep cost st nw).dist =
            insertA st.dist nw.1 (cost + nw.2) := by rw [heq]
        rw [hd, keys_insertA] at h1
        split at h1
        · exact Or.inl h1
        · rcases List.mem_append.mp h1 with h2 | h2
          · exact Or.inl h2
          · rw [List.mem_singleton] at h2
            exact Or.inr (by simp [h2])
    · exact Or.inr (by simp [h1])

theorem relaxN_qinv :
    ∀ (nbrs : List (Nat × Nat)) (cost : Nat) (st : DState),
      (∀ cp ∈ st.queue, ∃ dv, lookupA st.dist cp.2 = some dv ∧ dv ≤ cp.1) →
      ∀ cp ∈ (relaxN cost st nbrs).queue,
        ∃ dv, lookupA (relaxN cost st nbrs).dist cp.2 = some dv ∧ dv ≤ cp.1 := by
  intro nbrs
  induction nbrs with
  | nil => intro cost st h; exact h
  | cons nw t ih =>
    intro cost st h
    rw [relaxN_cons]
    refine ih cost _ ?_
    rcases relaxStep_cases cost st nw with ⟨heq, _⟩ | ⟨heq, hupd⟩
    · rw [heq]
      exact h
    · rw [heq]
      intro cp hcp
      rcases List.mem_append.mp hcp with hold | hnew
      · obtain ⟨dv, hdv, hle⟩ := h cp hold
        by_cases hx : cp.2 = nw.1
        · rw [hx]
          rw [hx] at hdv
          exact ⟨cost + nw.2, lookupA_insertA_self _ _ _,
            le_trans (le_of_lt (hupd dv hdv)) hle⟩
        · rw [show lookupA (insertA st.dist nw.1 (cost + nw.2)) cp.2 =
              lookupA st.dist cp.2 from lookupA_insertA_ne _ _ hx]
          exact ⟨dv, hdv, hle⟩
      · rw [List.mem_singleton] at hnew
        rw [hnew]
        exact ⟨cost + nw.2, lookupA_insertA_self _ _ _, le_refl _⟩

theorem relaxN_post :
    ∀ (nbrs : List (Nat × Nat)) (cost : Nat) (st : DState), ∀ nw ∈ nbrs,
      ∃ dv, lookupA (relaxN cost st nbrs).dist nw.1 = some dv ∧
        dv ≤ cost + nw.2 := by
  intro nbrs
  induction nbrs with
  | nil => intro cost st nw h; simp at h
  | cons nw0 t ih =>
    intro cost st nw hmem
    rw [relaxN_cons]
    rcases List.mem_cons.mp hmem with heq | hmt
    · rw [heq]
      rcases relaxStep_cases cost st nw0 with ⟨hst, dv, hdv, hle⟩ | ⟨hst, _⟩
      · rw [hst]
        obtain ⟨dv', h1, h2⟩ := relaxN_lookup_mono t cost st nw0.1 dv hdv
        exact ⟨dv', h1, le_trans h2 hle⟩
      · have h0 : lookupA (relaxStep cost st nw0).dist nw0.1 =
            some (cost + nw0.2) := by
          rw [hst]
          exact lookupA_insertA_self _ _ _
        obtain ⟨dv', h1, h2⟩ := relaxN_lookup_mono t cost _ nw0.1 _ h0
        exact ⟨dv', h1, h2⟩
    · exact ih cost _ nw hmt

theorem relaxN_reaches (g : DijkstraAlgorithm) (start : Nat) :
    ∀ (nbrs : List (Nat × Nat)) (cost : Nat) (st : DState) (u : Nat),
      (keys st.dist).Nodup →
      (∀ nw ∈ nbrs, (⟨u, nw.1, (nw.2 : Int)⟩ : Edge) ∈ dEdges g) →
      Reaches (dEdges g) start u →
      (∀ p ∈ st.dist, Reaches (dEdges g) start p.1) →
      ∀ p ∈ (relaxN cost st nbrs).dist, Reaches (dEdges g) start p.1 := by
  intro nbrs
  induction nbrs with
  | nil => intro cost st u _ _ _ hbase; exact hbase
  | cons nw t ih =>
    intro cost st u hnd hE hru hbase
    rw [relaxN_cons]
    rcases relaxStep_cases cost st nw with ⟨heq, _⟩ | ⟨heq, _⟩
    · rw [heq]
      exact ih cost st u hnd (fun x hx => hE x (by simp [hx])) hru hbase
    · rw [heq]
      refine ih cost _ u ?_ (fun x hx => hE x (by simp [hx])) hru ?_
      · exact nodup_keys_insertA _ _ hnd
      · intro p hp
        rcases (mem_insertA hnd).mp hp with hnew | ⟨hold, _⟩
        · rw [hnew]
          refine reaches_trans hru ⟨[⟨u, nw.1, (nw.2 : Int)⟩], ?_⟩
          exact IsWalk.cons _ (hE nw (by simp)) (IsWalk.nil _)
        · exact hbase p hold

theorem settled_insert {g : DijkstraAlgorithm} {dist : List (Nat × Nat)}
    {p : Nat × Nat} {k v : Nat}
    (hupd : ∀ dv, lookupA dist k = some dv → v < dv)
    (hset : Settled g dist p) : Settled g (insertA dist k v) p := by
  intro nbrs hlook nw hnw
  obtain ⟨dv, hdv, hle⟩ := hset nbrs hlook nw hnw
  by_cases hk : nw.1 = k
  · rw [hk]
    rw [hk] at hdv
    exact ⟨v, lookupA_insertA_self _ _ _, le_trans (le_of_lt (hupd dv hdv)) hle⟩
  · rw [lookupA_insertA_ne _ _ hk]
    exact ⟨dv, hdv, hle⟩

theorem relaxN_pos (g : DijkstraAlgorithm) :
    ∀ (nbrs : List (Nat × Nat)) (cost : Nat) (st : DState) (u : Nat),
      (keys st.dist).Nodup → lookupA st.dist u = some cost →
      (∀ p ∈ st.dist, p.1 ≠ u → ((p.2, p.1) ∈ st.queue ∨ Settled g st.dist p)) →
      ∀ p ∈ (relaxN cost st nbrs).dist, p.1 ≠ u →
        ((p.2, p.1) ∈ (relaxN cost st nbrs).queue ∨
          Settled g (relaxN cost st nbrs).dist p) := by
  intro nbrs
  induction nbrs with
  | nil => intro cost st u _ _ hpos; exact hpos
  | cons nw t ih =>
    intro cost st u hnd hu hpos
    rw [relaxN_cons]
    rcases relaxStep_cases cost st nw with ⟨heq, _⟩ | ⟨heq, hupd⟩
    · rw [heq]
      exact ih cost st u hnd hu hpos
    · have hnwu : nw.1 ≠ u := by
        intro hc
        rw [hc] at hupd
        have := hupd cost hu
        omega
      rw [heq]
      refine ih cost _ u (nodup_keys_insertA _ _ hnd) ?_ ?_
      · show lookupA (insertA st.dist nw.1 (cost + nw.2)) u = some cost
        rw [lookupA_insertA_ne _ _ (fun hc => hnwu hc.symm)]
        exact hu
      · intro p hp hpu
        rcases (mem_insertA hnd).mp hp with hnew | ⟨hold, hne⟩
        · left
          rw [hnew]
          simp
        · rcases hpos p hold hpu with hpend | hset
          · left
            simp only [List.mem_append]
            exact Or.inl hpend
          · right
            exact settled_insert hupd hset

theorem dstep_empty {g : DijkstraAlgorithm} {s : DState} (h : s.queue = []) :
    dstep g s = s := by
  unfold dstep
  rw [popTop_none.mpr h]

theorem dstep_stale {g : DijkstraAlgorithm} {s : DState} {cp : Nat × Nat}
    {rest : List (Nat × Nat)} {dv : Nat} (hpop : popTop s.queue = some (cp, rest))
    (hdv : lookupA s.dist cp.2 = some dv) (hgt : dv < cp.1) :
    dstep g s = { s with queue := rest } := by
  unfold dstep
  rw [hpop]
  simp only [hdv]
  rw [if_pos (decide_eq_true hgt)]

theorem dstep_skip {g : DijkstraAlgorithm} {s : DState} {cp : Nat × Nat}
    {rest : List (Nat × Nat)} {dv : Nat} (hpop : popTop s.queue = some (cp, rest))
    (hdv : lookupA s.dist cp.2 = some dv) (hle : cp.1 ≤ dv)
    (hlook : lookupA g.graph cp.2 = none) :
    dstep g s = { s with queue := rest } := by
  unfold dstep
  rw [hpop]
  simp only [hdv, hlook]
  rw [if_neg ?_]
  intro hc
  have := of_decide_eq_true hc
  omega

theorem dstep_relax {g : DijkstraAlgorithm} {s : DState} {cp : Nat × Nat}
    {rest : List (Nat × Nat)} {dv : Nat} {nbrs : List (Nat × Nat)}
    (hpop : popTop s.queue = some (cp, rest))
    (hdv : lookupA s.dist cp.2 = some dv) (hle : cp.1 ≤ dv)
    (hlook : lookupA g.graph cp.2 = some nbrs) :
    dstep g s = relaxN cp.1 ⟨s.dist, rest⟩ nbrs := by
  unfold dstep
  rw [hpop]
  simp only [hdv, hlook]
  rw [if_neg ?_]
  intro hc
  have := of_decide_eq_true hc
  omega

theorem dstep_inv {g : DijkstraAlgorithm} {start : Nat} {s : DState}
    (hb : DBase g start s) (hi : DInv g start s) :
    DBase g start (dstep g s) ∧ DInv g start (dstep g s) := by
  obtain ⟨hnd, hsub⟩ := hb
  obtain ⟨h0, hq, hpos, hre⟩ := hi
  cases hpop : popTop s.queue with
  | none =>
    rw [dstep_empty (popTop_none.mp hpop)]
    exact ⟨⟨hnd, hsub⟩, h0, hq, hpos, hre⟩
  | some pr =>
    obtain ⟨cp, rest⟩ := pr
    have hperm := popTop_perm hpop
    have hcpq : cp ∈ s.queue := hperm.mem_iff.mpr (by simp)
    have hrest_sub : ∀ x ∈ rest, x ∈ s.queue := fun x hx =>
      hperm.mem_iff.mpr (by simp [hx])
    obtain ⟨dv0, hdv0, hdvle⟩ := hq cp hcpq
    rcases Nat.lt_or_ge dv0 cp.1 with hgt | hge
    · rw [dstep_stale hpop hdv0 hgt]
      refine ⟨⟨hnd, hsub⟩, h0, ?_, ?_, hre⟩
      · intro cp' hcp'
        exact hq cp' (hrest_sub cp' hcp')
      · intro p hp
        rcases hpos p hp with hpend | hset
        · left
          have hne : (p.2, p.1) ≠ cp := by
            intro hc
            have hl := mem_lookupA hnd hp
            rw [← hc] at hdv0 hgt
            rw [hl] at hdv0
            injection hdv0 with hdv0
            omega
          have hmem : (p.2, p.1) ∈ cp :: rest := hperm.mem_iff.mp hpend
          exact (List.mem_cons.mp hmem).resolve_left hne
        · right
          exact hset
    · have hdveq : dv0 = cp.1 := le_antisymm hdvle hge
      rw [hdveq] at hdv0
      cases hlook : lookupA g.graph cp.2 with
      | none =>
        rw [dstep_skip hpop hdv0 (le_refl cp.1) hlook]
        refine ⟨⟨hnd, hsub⟩, h0, ?_, ?_, hre⟩
        · intro cp' hcp'
          exact hq cp' (hrest_sub cp' hcp')
        · intro p hp
          rcases hpos p hp with hpend | hset
          · have hmem : (p.2, p.1) ∈ cp :: rest := hperm.mem_iff.mp hpend
            rcases List.mem_cons.mp hmem with hc | hc
            · right
              intro nbrs hnbrs
              exfalso
              have hp1 : p.1 = cp.2 := by rw [← hc]
              rw [hp1, hlook] at hnbrs
              exact absurd hnbrs (by simp)
            · left
              exact hc
          · right
            exact hset
      | some nbrs =>
        rw [dstep_relax hpop hdv0 (le_refl cp.1) hlook]
        have hmemg : (cp.2, nbrs) ∈ g.graph := lookupA_mem hlook
        have hedges : ∀ nw ∈ nbrs, (⟨cp.2, nw.1, (nw.2 : Int)⟩ : Edge) ∈ dEdges g := by
          intro nw hnw
          unfold dEdges
          rw [List.mem_flatMap]
          exact ⟨(cp.2, nbrs), hmemg, List.mem_map.mpr ⟨nw, hnw, rfl⟩⟩
        have htargets : ∀ nw ∈ nbrs, nw.1 ∈ kandidates g start := by
          intro nw hnw
          unfold kandidates
          rw [List.mem_dedup]
          right
          unfold targets
          exact List.mem_flatMap.mpr ⟨(cp.2, nbrs), hmemg,
            List.mem_map.mpr ⟨nw, hnw, rfl⟩⟩
        have hqrest : ∀ cp' ∈ (⟨s.dist, rest⟩ : DState).queue,
            ∃ dv, lookupA (⟨s.dist, rest⟩ : DState).dist cp'.2 = some dv ∧
              dv ≤ cp'.1 := by
          intro cp' hcp'
          exact hq cp' (hrest_sub cp' hcp')
        have hkeep := relaxN_keep_small nbrs cp.1 ⟨s.dist, rest⟩
          (le_refl cp.1) hdv0
        constructor
        · constructor
          · exact relaxN_nodup nbrs cp.1 ⟨s.dist, rest⟩ hnd
          · intro x hx
            rcases relaxN_keys_sub nbrs cp.1 ⟨s.dist, rest⟩ x hx with h1 | h1
            · exact hsub x h1
            · obtain ⟨nw, hnw, hx2⟩ := List.mem_map.mp h1
              rw [← hx2]
              exact htargets nw hnw
        · refine ⟨?_, ?_, ?_, ?_⟩
          · exact relaxN_keep_small nbrs cp.1 ⟨s.dist, rest⟩ (Nat.zero_le cp.1) h0
          · exact relaxN_qinv nbrs cp.1 ⟨s.dist, rest⟩ hqrest
          · intro p hp
            by_cases hpu : p.1 = cp.2
            · right
              have hpl := mem_lookupA (relaxN_nodup nbrs cp.1 ⟨s.dist, rest⟩ hnd) hp
              rw [hpu] at hpl
              rw [hkeep] at hpl
              injection hpl with hpl
              intro nbrs' hnbrs' nw hnw
              rw [hpu, hlook] at hnbrs'
              injection hnbrs' with hnbrs'
              rw [← hnbrs'] at hnw
              obtain ⟨dv, hdv, hdle⟩ := relaxN_post nbrs cp.1 ⟨s.dist, rest⟩ nw hnw
              exact ⟨dv, hdv, by omega⟩
            · have hposx : ∀ p ∈ (⟨s.dist, rest⟩ : DState).dist, p.1 ≠ cp.2 →
                  ((p.2, p.1) ∈ (⟨s.dist, rest⟩ : DState).queue ∨
                    Settled g (⟨s.dist, rest⟩ : DState).dist p) := by
                intro p' hp' hp'u
                rcases hpos p' hp' with hpend | hset
                · left
                  have hne : (p'.2, p'.1) ≠ cp := by
                    intro hc
                    refine hp'u ?_
                    rw [← hc]
                  have hmem : (p'.2, p'.1) ∈ cp :: rest := hperm.mem_iff.mp hpend
                  exact (List.mem_cons.mp hmem).resolve_left hne
                · right
                  exact hset
              exact relaxN_pos g nbrs cp.1 ⟨s.dist, rest⟩ cp.2 hnd hdv0 hposx
                p hp hpu
          · have hru : Reaches (dEdges g) start cp.2 := by
              have hmem : (cp.2, cp.1) ∈ s.dist := lookupA_mem hdv0
              exact hre (cp.2, cp.1) hmem
            exact relaxN_reaches g start nbrs cp.1 ⟨s.dist, rest⟩ cp.2 hnd
              hedges hru hre

theorem filter_length_mono {α : Type} (p q : α → Bool) :
    ∀ (l : List α), (∀ x ∈ l, q x = true → p x = true) →
      (l.filter q).length ≤ (l.filter p).length := by
  intro l
  induction l with
  | nil => intro _; simp
  | cons a t ih =>
    intro h
    have hrec := ih (fun x hx hqx => h x (by simp [hx]) hqx)
    by_cases hq : q a = true
    · have hp := h a (by simp) hq
      simp only [List.filter_cons, hq, hp, if_true, List.length_cons]
      omega
    · rw [Bool.not_eq_true] at hq
      simp only [List.filter_cons, hq, Bool.false_eq_true, if_false]
      by_cases hp : p a = true
      · simp only [hp, if_true, List.length_cons]
        omega
      · rw [Bool.not_eq_true] at hp
        simp only [hp, Bool.false_eq_true, if_false]
        exact hrec

theorem filter_length_strict {α : Type} (p q : α → Bool) :
    ∀ (l : List α), (∀ x ∈ l, q x = true → p x = true) →
      (∃ x ∈ l, p x = true ∧ q x = false) →
      (l.filter q).length < (l.filter p).length := by
  intro l
  induction l with
  | nil => intro _ h; simp at h
  | cons a t ih =>
    intro h hex
    have hmono := filter_length_mono p q t (fun x hx hqx => h x (by simp [hx]) hqx)
    obtain ⟨x, hxmem, hpx, hqx⟩ := hex
    rcases List.mem_cons.mp hxmem with hxa | hxt
    · rw [hxa] at hpx hqx
      simp only [List.filter_cons, hpx, if_true, hqx, Bool.false_eq_true, if_false,
        List.length_cons]
      omega
    · have hrec := ih (fun y hy hqy => h y (by simp [hy]) hqy) ⟨x, hxt, hpx, hqx⟩
      by_cases hq : q a = true
      · have hp := h a (by simp) hq
        simp only [List.filter_cons, hq, hp, if_true, List.length_cons]
        omega
      · rw [Bool.not_eq_true] at hq
        simp only [List.filter_cons, hq, Bool.false_eq_true, if_false]
        by_cases hp : p a = true
        · simp only [hp, if_true, List.length_cons]
          omega
        · rw [Bool.not_eq_true] at hp
          simp only [hp, Bool.false_eq_true, if_false]
          exact hrec

theorem m1d_congr {K : List Nat} {d1 d2 : List (Nat × Nat)}
    (h : ∀ x ∈ K, (lookupA d1 x).isNone = (lookupA d2 x).isNone) :
    m1d K d1 = m1d K d2 := by
  unfold m1d
  rw [List.filter_congr h]

theorem relaxStep_measure {K : List Nat} {cost : Nat} {st : DState}
    {nw : Nat × Nat} (hK : nw.1 ∈ K) (hnd : (keys st.dist).Nodup) :
    m1d K (relaxStep cost st nw).dist ≤ m1d K st.dist ∧
      (m1d K (relaxStep cost st nw).dist = m1d K st.dist →
        m2 (relaxStep cost st nw) + (relaxStep cost st nw).queue.length ≤
          m2 st + st.queue.length) := by
  rcases relaxStep_cases cost st nw with ⟨heq, _⟩ | ⟨heq, hupd⟩
  · rw [heq]
    exact ⟨le_refl _, fun _ => le_refl _⟩
  · cases hl : lookupA st.dist nw.1 with
    | some dv =>
      have hlt := hupd dv hl
      have hcong : m1d K (relaxStep cost st nw).dist = m1d K st.dist := by
        refine m1d_congr ?_
        intro x _
        rw [heq]
        show (lookupA (insertA st.dist nw.1 (cost + nw.2)) x).isNone = _
        by_cases hx : x = nw.1
        · rw [hx, lookupA_insertA_self, hl]
          rfl
        · rw [lookupA_insertA_ne _ _ hx]
      refine ⟨le_of_eq hcong, fun _ => ?_⟩
      have hsum := sum_insertA_update (cost + nw.2) hnd hl
      rw [heq]
      show ((insertA st.dist nw.1 (cost + nw.2)).map Prod.snd).sum +
        (st.queue ++ [(cost + nw.2, nw.1)]).length ≤ _
      simp only [List.length_append, List.length_cons, List.length_nil]
      unfold m2
      omega
    | none =>
      have hstrict : m1d K (relaxStep cost st nw).dist < m1d K st.dist := by
        unfold m1d
        refine filter_length_strict _ _ K ?_ ?_
        · intro x _ hq
          rw [heq] at hq
          have hq' : (lookupA (insertA st.dist nw.1 (cost + nw.2)) x).isNone = true := hq
          by_cases hx : x = nw.1
          · rw [hx, lookupA_insertA_self] at hq'
            simp at hq'
          · rw [lookupA_insertA_ne _ _ hx] at hq'
            exact hq'
        · refine ⟨nw.1, hK, by show (lookupA st.dist nw.1).isNone = true; rw [hl]; rfl, ?_⟩
          rw [heq]
          show (lookupA (insertA st.dist nw.1 (cost + nw.2)) nw.1).isNone = false
          rw [lookupA_insertA_self]
          rfl
      exact ⟨le_of_lt hstrict, fun hc => absurd hc (by omega)⟩

theorem relaxStep_nodup {cost : Nat} {st : DState} {nw : Nat × Nat}
    (hnd : (keys st.dist).Nodup) : (keys (relaxStep cost st nw).dist).Nodup := by
  rcases relaxStep_cases cost st nw with ⟨heq, _⟩ | ⟨heq, _⟩
  · rw [heq]; exact hnd
  · rw [heq]
    exact nodup_keys_insertA _ _ hnd

theorem relaxN_measure {K : List Nat} :
    ∀ (nbrs : List (Nat × Nat)) (cost : Nat) (st : DState),
      (keys st.dist).Nodup → (∀ nw ∈ nbrs, nw.1 ∈ K) →
      m1d K (relaxN cost st nbrs).dist ≤ m1d K st.dist ∧
        (m1d K (relaxN cost st nbrs).dist = m1d K st.dist →
          m2 (relaxN cost st nbrs) + (relaxN cost st nbrs).queue.length ≤
            m2 st + st.queue.length) := by
  intro nbrs
  induction nbrs with
  | nil => intro cost st _ _; exact ⟨le_refl _, fun _ => le_refl _⟩
  | cons nw t ih =>
    intro cost st hnd hK
    rw [relaxN_cons]
    obtain ⟨hs1, hs2⟩ := relaxStep_measure (hK nw (by simp)) hnd
    obtain ⟨hi1, hi2⟩ := ih cost (relaxStep cost st nw) (relaxStep_nodup hnd)
      (fun x hx => hK x (by simp [hx]))
    refine ⟨le_trans hi1 hs1, ?_⟩
    intro heq
    have he1 : m1d K (relaxN cost (relaxStep cost st nw) t).dist =
        m1d K (relaxStep cost st nw).dist := le_antisymm hi1 (by omega)
    have he2 : m1d K (relaxStep cost st nw).dist = m1d K st.dist := by omega
    exact le_trans (hi2 he1) (hs2 he2)

theorem dstep_measure {g : DijkstraAlgorithm} {start : Nat} {s : DState}
    (hb : DBase g start s) (hi : DInv g start s) (hne : s.queue ≠ []) :
    m1 g start (dstep g s) < m1 g start s ∨
      (m1 g start (dstep g s) = m1 g start s ∧
        2 * m2 (dstep g s) + m3 (dstep g s) < 2 * m2 s + m3 s) := by
  obtain ⟨hnd, hsub⟩ := hb
  obtain ⟨h0, hq, hpos, hre⟩ := hi
  cases hpop : popTop s.queue with
  | none => exact absurd (popTop_none.mp hpop) hne
  | some pr =>
    obtain ⟨cp, rest⟩ := pr
    have hperm := popTop_perm hpop
    have hlen : s.queue.length = rest.length + 1 := by
      rw [hperm.length_eq]
      simp
    have hcpq : cp ∈ s.queue := hperm.mem_iff.mpr (by simp)
    obtain ⟨dv0, hdv0, hdvle⟩ := hq cp hcpq
    rcases Nat.lt_or_ge dv0 cp.1 with hgt | hge
    · rw [dstep_stale hpop hdv0 hgt]
      right
      refine ⟨rfl, ?_⟩
      unfold m2 m3
      simp only
      omega
    · have hdveq : dv0 = cp.1 := le_antisymm hdvle hge
      rw [hdveq] at hdv0
      cases hlook : lookupA g.graph cp.2 with
      | none =>
        rw [dstep_skip hpop hdv0 (le_refl cp.1) hlook]
        right
        refine ⟨rfl, ?_⟩
        unfold m2 m3
        simp only
        omega
      | some nbrs =>
        rw [dstep_relax hpop hdv0 (le_refl cp.1) hlook]
        have hmemg : (cp.2, nbrs) ∈ g.graph := lookupA_mem hlook
        have htargets : ∀ nw ∈ nbrs, nw.1 ∈ kandidates g start := by
          intro nw hnw
          unfold kandidates
          rw [List.mem_dedup]
          right
          unfold targets
          exact List.mem_flatMap.mpr ⟨(cp.2, nbrs), hmemg,
            List.mem_map.mpr ⟨nw, hnw, rfl⟩⟩
        obtain ⟨hm1, hm2⟩ := relaxN_measure nbrs cp.1 ⟨s.dist, rest⟩ hnd htargets
        obtain ⟨ext, hext⟩ := relaxN_queue_ext nbrs cp.1 ⟨s.dist, rest⟩
        have hqlen : rest.length ≤ (relaxN cp.1 ⟨s.dist, rest⟩ nbrs).queue.length := by
          rw [hext]
          simp
        have hm1s : m1 g start s = m1d (kandidates g start) s.dist := rfl
        rcases Nat.lt_or_ge (m1d (kandidates g start)
            (relaxN cp.1 ⟨s.dist, rest⟩ nbrs).dist)
            (m1d (kandidates g start) s.dist) with hlt | hge2
        · left
          exact hlt
        · have heq1 : m1d (kandidates g start)
              (relaxN cp.1 ⟨s.dist, rest⟩ nbrs).dist =
              m1d (kandidates g start) s.dist := le_antisymm hm1 hge2
          right
          refine ⟨heq1, ?_⟩
          have hacc := hm2 heq1
          have hms : m2 (⟨s.dist, rest⟩ : DState) = m2 s := rfl
          have hqs : (⟨s.dist, rest⟩ : DState).queue.length = rest.length := rfl
          have hm3r : m3 (relaxN cp.1 ⟨s.dist, rest⟩ nbrs) =
              (relaxN cp.1 ⟨s.dist, rest⟩ nbrs).queue.length := rfl
          have hm3s : m3 s = s.queue.length := rfl
          rw [hms, hqs] at hacc
          rw [hm3r, hm3s]
          omega

theorem dexec_succ (g : DijkstraAlgorithm) (n : Nat) (s : DState) :
    dexec g (n + 1) s = dexec g n (dstep g s) := rfl

theorem dterm_aux {g : DijkstraAlgorithm} {start : Nat} :
    ∀ (a b : Nat) (s : DState), DBase g start s → DInv g start s →
      m1 g start s ≤ a → 2 * m2 s + m3 s ≤ b →
      ∃ n, (dexec g n s).queue = [] := by
  intro a
  induction a with
  | zero =>
    intro b
    induction b with
    | zero =>
      intro s hb hi h1 h2
      cases hq : s.queue with
      | nil => exact ⟨0, hq⟩
      | cons x t =>
        exfalso
        unfold m3 at h2
        rw [hq] at h2
        simp at h2
    | succ b ihb =>
      intro s hb hi h1 h2
      cases hq : s.queue with
      | nil => exact ⟨0, hq⟩
      | cons x t =>
        have hne : s.queue ≠ [] := by rw [hq]; simp
        obtain ⟨hb', hi'⟩ := dstep_inv hb hi
        rcases dstep_measure hb hi hne with hc | ⟨hc1, hc2⟩
        · omega
        · obtain ⟨n, hn⟩ := ihb (dstep g s) hb' hi' (by omega) (by omega)
          exact ⟨n + 1, by rw [dexec_succ]; exact hn⟩
  | succ a iha =>
    intro b
    induction b with
    | zero =>
      intro s hb hi h1 h2
      cases hq : s.queue with
      | nil => exact ⟨0, hq⟩
      | cons x t =>
        exfalso
        unfold m3 at h2
        rw [hq] at h2
        simp at h2
    | succ b ihb =>
      intro s hb hi h1 h2
      cases hq : s.queue with
      | nil => exact ⟨0, hq⟩
      | cons x t =>
        have hne : s.queue ≠ [] := by rw [hq]; simp
        obtain ⟨hb', hi'⟩ := dstep_inv hb hi
        rcases dstep_measure hb hi hne with hc | ⟨hc1, hc2⟩
        · obtain ⟨n, hn⟩ := iha (2 * m2 (dstep g s) + m3 (dstep g s))
            (dstep g s) hb' hi' (by omega) (le_refl _)
          exact ⟨n + 1, by rw [dexec_succ]; exact hn⟩
        · obtain ⟨n, hn⟩ := ihb (dstep g s) hb' hi' (by omega) (by omega)
          exact ⟨n + 1, by rw [dexec_succ]; exact hn⟩

theorem dinit_base (g : DijkstraAlgorithm) (start : Nat) :
    DBase g start (dinit start) := by
  constructor
  · simp [dinit, keys]
  · intro x hx
    simp only [dinit, keys, List.map_cons, List.map_nil, List.mem_singleton] at hx
    rw [hx]
    unfold kandidates
    rw [List.mem_dedup]
    exact List.mem_cons_self start (targets g)

theorem dinit_inv (g : DijkstraAlgorithm) (start : Nat) :
    DInv g start (dinit start) := by
  refine ⟨by simp [dinit, lookupA], ?_, ?_, ?_⟩
  · intro cp hcp
    simp only [dinit, List.mem_singleton] at hcp
    rw [hcp]
    exact ⟨0, by simp [lookupA], le_refl 0⟩
  · intro p hp
    simp only [dinit, List.mem_singleton] at hp
    left
    rw [hp]
    simp [dinit]
  · intro p hp
    simp only [dinit, List.mem_singleton] at hp
    rw [hp]
    exact ⟨[], IsWalk.nil start⟩

theorem dexec_inv (g : DijkstraAlgorithm) (start : Nat) :
    ∀ (n : Nat) (s : DState), DBase g start s → DInv g start s →
      DBase g start (dexec g n s) ∧ DInv g start (dexec g n s) := by
  intro n
  induction n with
  | zero => intro s hb hi; exact ⟨hb, hi⟩
  | succ m ih =>
    intro s hb hi
    rw [dexec_succ]
    obtain ⟨hb', hi'⟩ := dstep_inv hb hi
    exact ih (dstep g s) hb' hi'

theorem dijkstra_terminates (g : DijkstraAlgorithm) (start : Nat) :
    ∃ r, DOutcome g start r := by
  obtain ⟨n, hn⟩ := dterm_aux (m1 g start (dinit start))
    (2 * m2 (dinit start) + m3 (dinit start)) (dinit start)
    (dinit_base g start) (dinit_inv g start) (le_refl _) (le_refl _)
  exact ⟨collect (dexec g n (dinit start)).dist
    (List.replicate g.graph.length natMax), n, hn, rfl⟩

theorem dexec_add (g : DijkstraAlgorithm) (a : Nat) :
    ∀ (b : Nat) (s : DState), dexec g (a + b) s = dexec g a (dexec g b s) := by
  intro b
  induction b with
  | zero => intro s; rfl
  | succ m ih =>
    intro s
    have h1 : a + (m + 1) = (a + m) + 1 := by omega
    rw [h1]
    show dexec g (a + m) (dstep g s) = dexec g a (dexec g m (dstep g s))
    exact ih (dstep g s)

theorem dstep_of_empty {g : DijkstraAlgorithm} {s : DState} (h : s.queue = []) :
    dstep g s = s := dstep_empty h

theorem dexec_stable {g : DijkstraAlgorithm} :
    ∀ (n : Nat) {s : DState}, s.queue = [] → dexec g n s = s := by
  intro n
  induction n with
  | zero => intro s _; rfl
  | succ m ih =>
    intro s h
    rw [dexec_succ, dstep_of_empty h]
    exact ih h

theorem dexec_freeze {g : DijkstraAlgorithm} {m n : Nat} {s : DState}
    (hmn : m ≤ n) (h : (dexec g m s).queue = []) : dexec g n s = dexec g m s := by
  have h1 : n = (n - m) + m := by omega
  rw [h1, dexec_add]
  exact dexec_stable (n - m) h

theorem doutcome_unique {g : DijkstraAlgorithm} {start : Nat} {r1 r2 : List Nat}
    (h1 : DOutcome g start r1) (h2 : DOutcome g start r2) : r1 = r2 := by
  obtain ⟨n1, he1, hr1⟩ := h1
  obtain ⟨n2, he2, hr2⟩ := h2
  rcases le_total n1 n2 with hle | hle
  · rw [hr1, hr2, dexec_freeze hle he1]
  · rw [hr1, hr2, dexec_freeze hle he2]

theorem collect_length : ∀ (dist : List (Nat × Nat)) (r : List Nat),
    (collect dist r).length = r.length := by
  intro dist
  induction dist with
  | nil => intro r; rfl
  | cons p t ih =>
    intro r
    show (collect t (if p.1 < r.length then r.set p.1 p.2 else r)).length = r.length
    rw [ih]
    split
    · simp
    · rfl

theorem collect_getD_not_mem {u d0 : Nat} :
    ∀ (dist : List (Nat × Nat)) (r : List Nat), u ∉ keys dist →
      (collect dist r).getD u d0 = r.getD u d0 := by
  intro dist
  induction dist with
  | nil => intro r _; rfl
  | cons p t ih =>
    intro r hu
    simp only [keys, List.map_cons] at hu
    have hne : u ≠ p.1 := fun hc => hu (by rw [hc]; exact List.mem_cons_self _ _)
    have hu' : u ∉ keys t := fun hc => hu (List.mem_cons_of_mem _ hc)
    show (collect t (if p.1 < r.length then r.set p.1 p.2 else r)).getD u d0 =
      r.getD u d0
    rw [ih _ hu']
    split
    · exact getD_set_ne r u p.1 p.2 d0 hne
    · rfl

theorem collect_getD_mem {d0 : Nat} :
    ∀ (dist : List (Nat × Nat)) (r : List Nat) {u d : Nat},
      (keys dist).Nodup → (u, d) ∈ dist → u < r.length →
      (collect dist r).getD u d0 = d := by
  intro dist
  induction dist with
  | nil => intro r u d _ hm _; simp at hm
  | cons p t ih =>
    intro r u d hnd hm hu
    simp only [keys, List.map_cons] at hnd
    have hnd2 := List.nodup_cons.mp hnd
    show (collect t (if p.1 < r.length then r.set p.1 p.2 else r)).getD u d0 = d
    rcases List.mem_cons.mp hm with hpu | hmt
    · have hp1 : p.1 = u := by rw [← hpu]
      have hp2 : p.2 = d := by rw [← hpu]
      have hup : u ∉ keys t := by rw [← hp1]; exact hnd2.1
      rw [if_pos (by rw [hp1]; exact hu)]
      rw [collect_getD_not_mem t _ hup, hp1, hp2]
      exact getD_set_self r u d d0 hu
    · split
      · exact ih _ hnd2.2 hmt (by simpa using hu)
      · exact ih _ hnd2.2 hmt hu

theorem collect_append_oob (dist : List (Nat × Nat)) (r : List Nat)
    (p : Nat × Nat) (hp : r.length ≤ p.1) :
    collect (dist ++ [p]) r = collect dist r := by
  unfold collect
  rw [List.foldl_append]
  show (if p.1 < (collect dist r).length then (collect dist r).set p.1 p.2
    else collect dist r) = collect dist r
  rw [if_neg (by rw [collect_length]; omega)]

theorem doutcome_length {g : DijkstraAlgorithm} {start : Nat} {r : List Nat}
    (h : DOutcome g start r) : r.length = g.graph.length := by
  obtain ⟨n, _, hr⟩ := h
  rw [hr, collect_length]
  simp

theorem final_settled {g : DijkstraAlgorithm} {start : Nat} {s : DState}
    (hi : DInv g start s) (hq : s.queue = []) :
    ∀ p ∈ s.dist, Settled g s.dist p := by
  intro p hp
  rcases hi.2.2.1 p hp with hpend | hset
  · rw [hq] at hpend
    simp at hpend
  · exact hset

theorem doutcome_start {g : DijkstraAlgorithm} {start : Nat} {r : List Nat}
    (h : DOutcome g start r) (hs : start < r.length) : r.getD start 0 = 0 := by
  have hlen : r.length = g.graph.length := doutcome_length h
  obtain ⟨n, hq, hr⟩ := h
  obtain ⟨hb, hi⟩ := dexec_inv g start n (dinit start)
    (dinit_base g start) (dinit_inv g start)
  have h0 : (start, 0) ∈ (dexec g n (dinit start)).dist := lookupA_mem hi.1
  have hs' : start < g.graph.length := hlen ▸ hs
  rw [hr]
  exact collect_getD_mem _ _ hb.1 h0 (by simpa using hs')

theorem doutcome_unreach {g : DijkstraAlgorithm} {start u : Nat} {r : List Nat}
    (h : DOutcome g start r) (hu : u < r.length)
    (hnr : ¬ Reaches (dEdges g) start u) : r.getD u 0 = natMax := by
  have hlen : r.length = g.graph.length := doutcome_length h
  obtain ⟨n, hq, hr⟩ := h
  obtain ⟨hb, hi⟩ := dexec_inv g start n (dinit start)
    (dinit_base g start) (dinit_inv g start)
  have hnot : u ∉ keys (dexec g n (dinit start)).dist := by
    intro hmem
    obtain ⟨p, hp, hp1⟩ := List.mem_map.mp hmem
    exact hnr (hp1 ▸ hi.2.2.2 p hp)
  rw [hr, collect_getD_not_mem _ _ hnot]
  exact getD_replicate g.graph.length u natMax 0 (hlen ▸ hu)

theorem doutcome_triangle {g : DijkstraAlgorithm} {start : Nat} {r : List Nat}
    {u v w : Nat} {nbrs : List (Nat × Nat)}
    (h : DOutcome g start r) (hnb : lookupA g.graph u = some nbrs)
    (hvw : (v, w) ∈ nbrs) (hu : u < r.length) (hv : v < r.length)
    (hfin : r.getD u 0 ≠ natMax) :
    r.getD v 0 ≤ r.getD u 0 + w := by
  have hlen : r.length = g.graph.length := doutcome_length h
  obtain ⟨n, hq, hr⟩ := h
  obtain ⟨hb, hi⟩ := dexec_inv g start n (dinit start)
    (dinit_base g start) (dinit_inv g start)
  by_cases hmem : u ∈ keys (dexec g n (dinit start)).dist
  · cases hl : lookupA (dexec g n (dinit start)).dist u with
    | none => exact absurd (lookupA_eq_none.mp hl) (by simpa using hmem)
    | some du =>
      have hdu : (u, du) ∈ (dexec g n (dinit start)).dist := lookupA_mem hl
      have hsettled := final_settled hi hq (u, du) hdu nbrs hnb (v, w) hvw
      obtain ⟨dv, hdv, hdvle⟩ := hsettled
      have hdvm : (v, dv) ∈ (dexec g n (dinit start)).dist := lookupA_mem hdv
      have hru : r.getD u 0 = du := by
        rw [hr]
        exact collect_getD_mem _ _ hb.1 hdu (by simpa using (hlen ▸ hu))
      have hrv : r.getD v 0 = dv := by
        rw [hr]
        exact collect_getD_mem _ _ hb.1 hdvm (by simpa using (hlen ▸ hv))
      rw [hru, hrv]
      exact hdvle
  · exfalso
    apply hfin
    rw [hr, collect_getD_not_mem _ _ hmem]
    exact getD_replicate g.graph.length u natMax 0 (hlen ▸ hu)

theorem keys_toFinset_insertA {β : Type} (l : List (Nat × β)) (k : Nat) (b : β) :
    (keys (insertA l k b)).toFinset = insert k (keys l).toFinset := by
  rw [keys_insertA]
  split
  · rename_i hk
    rw [Finset.insert_eq_self.mpr (List.mem_toFinset.mpr hk)]
  · rw [List.toFinset_append]
    simp [Finset.insert_eq, Finset.union_comm]

theorem set_nodes_keys (calls : List (Nat × List (Nat × Nat))) :
    ∀ (g : DijkstraAlgorithm), (keys g.graph).Nodup →
      (keys (set_nodes g calls).graph).Nodup ∧
      (keys (set_nodes g calls).graph).toFinset =
        (keys g.graph).toFinset ∪ (calls.map Prod.fst).toFinset := by
  induction calls with
  | nil => intro g hnd; exact ⟨hnd, by simp [set_nodes]⟩
  | cons c t ih =>
    intro g hnd
    have hstep : set_nodes g (c :: t) = set_nodes (g.set_node c.1 c.2) t := rfl
    rw [hstep]
    obtain ⟨hnd', heq⟩ := ih (g.set_node c.1 c.2) (nodup_keys_insertA _ _ hnd)
    refine ⟨hnd', ?_⟩
    rw [heq]
    have hkeys : (keys (g.set_node c.1 c.2).graph).toFinset =
        insert c.1 (keys g.graph).toFinset := keys_toFinset_insertA _ _ _
    rw [hkeys, List.map_cons, List.toFinset_cons, Finset.insert_union,
      Finset.union_insert]

theorem set_nodes_count (calls : List (Nat × List (Nat × Nat))) :
    (set_nodes new calls).graph.length = ((calls.map Prod.fst).dedup).length := by
  obtain ⟨hnd, heq⟩ := set_nodes_keys calls new (by simp [new, keys])
  have h1 : (keys (set_nodes new calls).graph).length =
      (set_nodes new calls).graph.length := by
    simp [keys]
  rw [← h1, ← List.toFinset_card_of_nodup hnd, heq]
  have hemp : (keys (new : DijkstraAlgorithm).graph).toFinset = ∅ := by
    simp [new, keys]
  rw [hemp, Finset.empty_union]
  exact List.card_toFinset _

end DijkstraAlgorithm

theorem reaches_dest {E : List Edge} {s v : Nat} (h : Reaches E s v) :
    s = v ∨ ∃ e ∈ E, e.destination = v := by
  obtain ⟨es, hw⟩ := h
  induction hw with
  | nil u => exact Or.inl rfl
  | cons e he hwk ih =>
    rcases ih with h1 | h2
    · exact Or.inr ⟨e, he, h1⟩
    · exact Or.inr h2

section Claims

open BellmanFordAlgorithm DijkstraAlgorithm FloydWarshallAlgorithm

/-- Claim C1 (amended): after the bounded rounds, the Bellman-Ford `run`
returns `NegativeWeightCycle` exactly when the final full edge-relaxation pass
finds an edge with a non-sentinel source distance that would still strictly
improve its destination, and whenever the error is returned (from an in-range
start on a well-formed graph) the graph does contain a negative-weight simple
cycle reachable from the start; a reachable negative cycle does not always
trigger the error, because sentinel-valued distances opt out of relaxation. -/
theorem claim_C1 :
    (∀ (g : BellmanFordAlgorithm) (st : Int),
      g.run (some st) = .error .negativeWeightCycle ↔
        ∃ e ∈ g.edges, improves (rounds g.edges (g.total_vertices - 1)
          ((List.replicate g.total_vertices intMax).set st.toNat 0)) e = true) ∧
    (∀ (g : BellmanFordAlgorithm) (st : Int), g.WF → st.toNat < g.total_vertices →
      g.run (some st) = .error .negativeWeightCycle →
      ∃ y ds, IsNegCycle g.edges y ds ∧ Reaches g.edges st.toNat y) :=
  ⟨fun _ _ => run_error_iff, fun _ _ hwf hs herr => run_error_negcycle hwf hs herr⟩

/-- Witness for C1: the soundness direction applied to the negative triangle
`0→1:1, 1→2:-1, 2→0:-1`, whose run does error. -/
theorem claim_C1_witness :
    ∃ y ds, IsNegCycle gBFneg.edges y ds ∧ Reaches gBFneg.edges (0 : Int).toNat y :=
  claim_C1.2 gBFneg 0 (by unfold BellmanFordAlgorithm.WF; decide) (by decide) rfl

/-- Counterexample to C1 as stated: in `gBF1` the negative self-loop at node 1
is reachable from the start 0 (via the `i32::MAX`-weight edge), yet `run`
returns `Ok` — the sentinel-valued distance at node 1 never relaxes, so the
reachable negative cycle goes undetected. -/
theorem claim_C1_counterexample :
    gBF1.run (some 0) = .ok [0, 2147483647] ∧
    IsNegCycle gBF1.edges 1 [⟨1, 1, -1⟩] ∧ Reaches gBF1.edges (0 : Int).toNat 1 := by
  refine ⟨rfl, ⟨by decide, ?_, by decide, by decide⟩, ⟨[⟨0, 1, 2147483647⟩], ?_⟩⟩
  · exact IsWalk.cons ⟨1, 1, -1⟩ (by decide) (IsWalk.nil 1)
  · exact IsWalk.cons ⟨0, 1, 2147483647⟩ (by decide) (IsWalk.nil 1)

/-- Claim C2 (amended): for every single-source run that succeeds, the
returned distance vector holds 0 at index `start`, provided `start` is in
range of the result (below `total_vertices` for Bellman-Ford, below the
number of registered nodes for the Dijkstra engine); a start outside that
range yields a result with no entry 0 at all. -/
theorem claim_C2 :
    (∀ (g : BellmanFordAlgorithm) (st : Int) (d : List Int),
      st.toNat < g.total_vertices → g.run (some st) = .ok d →
      d.getD st.toNat intMax = 0) ∧
    (∀ (g : DijkstraAlgorithm) (start : Nat) (r : List Nat),
      DOutcome g start r → start < r.length → r.getD start 0 = 0) :=
  ⟨fun _ _ _ hs h => run_ok_start_zero hs h,
   fun _ _ _ h hs => doutcome_start h hs⟩

/-- Witness for C2: the spec scenarios `gBFok` (run from 0, result
`[0, 4, 3, 6]`) and `gD1` (run from 0, result `[0, 1, 3]`). -/
theorem claim_C2_witness :
    (([0, 4, 3, 6] : List Int).getD 0 intMax = 0) ∧
    (([0, 1, 3] : List Nat).getD 0 0 = 0) :=
  ⟨claim_C2.1 gBFok 0 [0, 4, 3, 6] (by decide) rfl,
   claim_C2.2 gD1 0 [0, 1, 3] ⟨4, rfl, rfl⟩ (by decide)⟩

/-- Counterexample to C2 as stated: running the Dijkstra engine from the
unregistered start 5 on a graph whose only registered node is 0 succeeds with
`Ok([usize::MAX])` — a vector with no index 5 and no entry 0 anywhere. -/
theorem claim_C2_counterexample :
    DRun gD5 (some 5) (Except.ok [natMax]) ∧
    (∀ x ∈ [natMax], x ≠ 0) ∧ ([natMax] : List Nat).length ≤ 5 :=
  ⟨⟨[natMax], rfl, 1, rfl, rfl⟩, by decide, by decide⟩

/-- Claim C3: the vector returned by the Dijkstra `run` has length equal to
the number of distinct node keys registered via `set_node`/`set_nodes` (not
the maximum id plus one), and a computed distance for a node id at or beyond
that count is silently dropped by the final conversion. -/
theorem claim_C3 :
    (∀ (calls : List (Nat × List (Nat × Nat))) (start : Nat) (r : List Nat),
      DOutcome (DijkstraAlgorithm.new.set_nodes calls) start r →
      r.length = ((calls.map Prod.fst).dedup).length) ∧
    (∀ (dist : List (Nat × Nat)) (r0 : List Nat) (p : Nat × Nat),
      r0.length ≤ p.1 → collect (dist ++ [p]) r0 = collect dist r0) :=
  ⟨fun calls _ _ h => (doutcome_length h).trans (set_nodes_count calls),
   fun dist r0 p hp => collect_append_oob dist r0 p hp⟩

/-- Witness for C3: the three-node spec scenario yields a length-3 result,
and a distance recorded for the out-of-range node 9 is dropped. -/
theorem claim_C3_witness :
    ([0, 1, 3] : List Nat).length =
      ((([(0, [(1, 1), (2, 4)]), (1, [(2, 2)]), (2, [])] :
        List (Nat × List (Nat × Nat))).map Prod.fst).dedup).length ∧
    collect ([(0, 3)] ++ [(9, 4)]) [5] = collect [(0, 3)] [5] :=
  ⟨claim_C3.1 [(0, [(1, 1), (2, 4)]), (1, [(2, 2)]), (2, [])] 0 [0, 1, 3]
    ⟨4, rfl, rfl⟩,
   claim_C3.2 [(0, 3)] [5] (9, 4) (by decide)⟩

/-- Claim C4: triangle inequality of every successful single-source run.  For
Bellman-Ford, every edge with a non-sentinel source distance in an `Ok`
result satisfies `d[dest] ≤ d[src] + w`, and `run` returns
`NegativeWeightCycle` instead whenever some edge would still improve after
the bounded rounds; for the Dijkstra engine, every adjacency-map edge whose
endpoints are in range of the result satisfies the same bound. -/
theorem claim_C4 :
    (∀ (g : BellmanFordAlgorithm) (st : Int) (d : List Int) (e : Edge),
      g.run (some st) = .ok d → e ∈ g.edges →
      d.getD e.source intMax ≠ intMax →
      d.getD e.destination intMax ≤ d.getD e.source intMax + e.weight) ∧
    (∀ (g : DijkstraAlgorithm) (start : Nat) (r : List Nat) (u v w : Nat)
      (nbrs : List (Nat × Nat)), DOutcome g start r →
      lookupA g.graph u = some nbrs → (v, w) ∈ nbrs →
      u < r.length → v < r.length → r.getD u 0 ≠ natMax →
      r.getD v 0 ≤ r.getD u 0 + w) ∧
    (∀ (g : BellmanFordAlgorithm) (st : Int),
      (∃ e ∈ g.edges, improves (rounds g.edges (g.total_vertices - 1)
        ((List.replicate g.total_vertices intMax).set st.toNat 0)) e = true) →
      g.run (some st) = .error .negativeWeightCycle) :=
  ⟨fun _ _ _ e h he hf => run_ok_feasible h e he hf,
   fun _ _ _ _ _ _ _ h hnb hvw hu hv hfin =>
     doutcome_triangle h hnb hvw hu hv hfin,
   fun _ _ hex => run_error_iff.mpr hex⟩

/-- Witness for C4: the edge `0→1:4` of `gBFok`, the edge `0→1:1` of `gD1`,
and the still-improving detection pass of the negative triangle `gBFneg`. -/
theorem claim_C4_witness :
    (([0, 4, 3, 6] : List Int).getD 1 intMax ≤
      ([0, 4, 3, 6] : List Int).getD 0 intMax + 4) ∧
    (([0, 1, 3] : List Nat).getD 1 0 ≤ ([0, 1, 3] : List Nat).getD 0 0 + 1) ∧
    gBFneg.run (some 0) = .error .negativeWeightCycle :=
  ⟨claim_C4.1 gBFok 0 [0, 4, 3, 6] ⟨0, 1, 4⟩ rfl (by decide) (by decide),
   claim_C4.2.1 gD1 0 [0, 1, 3] 0 1 1 [(1, 1), (2, 4)] ⟨4, rfl, rfl⟩ rfl
     (by decide) (by decide) (by decide) (by decide),
   claim_C4.2.2 gBFneg 0 (by decide)⟩

/-- Claim C5: on every graph state, calling `run` with no start node on a
single-source engine returns `MissingStartNode` immediately, before any
other work. -/
theorem claim_C5 :
    (∀ (g : BellmanFordAlgorithm), g.run none = .error .missingStartNode) ∧
    (∀ (g : DijkstraAlgorithm) (res : Except GraphError (List Nat)),
      DRun g none res ↔ res = .error .missingStartNode) :=
  ⟨fun _ => rfl, fun _ _ => Iff.rfl⟩

/-- Claim C6 (amended): in the matrix returned by the Floyd-Warshall `run`,
the diagonal entry of every node index below `total_nodes` is initialized to
zero regardless of self-loop edges, and after the triple loop it is at most
zero; when it is not zero the node lies on a negative-weight closed walk (not
necessarily a simple cycle: a negative entry can also reach the diagonal of a
node that lies on no negative simple cycle). -/
theorem claim_C6 :
    (∀ (g : FloydWarshallAlgorithm) (v : Nat), v < g.total_nodes →
      mGet (withDiag g) v v = 0) ∧
    (∀ (g : FloydWarshallAlgorithm) (st : Option Nat) (M : List (List Int))
      (v : Nat), g.run st = .ok M → v < g.total_nodes →
      mGet M v v ≤ 0 ∧ (mGet M v v ≠ 0 →
        ∃ ws, ws ≠ [] ∧ IsWalk (fwEdges g) v v ws ∧ walkWeight ws < 0)) := by
  constructor
  · intro g v hv
    rw [withDiag_getD]
    simp [hv]
  · intro g st M v h hv
    exact ⟨run_diag_le h hv, fun hne => run_diag_walk h hv hne⟩

set_option maxRecDepth 4000 in
/-- Witness for C6: node 2 of the counterexample graph `gC6` has diagonal 0
after initialization and a negative diagonal entry, with a negative closed
walk through it, in the run result. -/
theorem claim_C6_witness :
    mGet (withDiag gC6) 2 2 = 0 ∧
    (mGet [[-23, -33, -52], [-22, -32, -51], [-35, -45, -64]] 2 2 ≤ 0 ∧
      (mGet [[-23, -33, -52], [-22, -32, -51], [-35, -45, -64]] 2 2 ≠ 0 →
        ∃ ws, ws ≠ [] ∧ IsWalk (fwEdges gC6) 2 2 ws ∧ walkWeight ws < 0)) :=
  ⟨claim_C6.1 gC6 2 (by decide),
   claim_C6.2 gC6 none [[-23, -33, -52], [-22, -32, -51], [-35, -45, -64]] 2
     rfl (by decide)⟩

set_option maxRecDepth 4000 in
/-- Counterexample to C6 as stated: in `gC6` the diagonal entry of node 2 is
`-64`, yet node 2 lies on no negative-weight simple cycle (its only simple
cycle `2→1→2` weighs 4); the negative cycle `1→0→1` elsewhere in the graph
drives the entry negative through shortest-path propagation. -/
theorem claim_C6_counterexample :
    FloydWarshallAlgorithm.run gC6 none =
      .ok [[-23, -33, -52], [-22, -32, -51], [-35, -45, -64]] ∧
    mGet [[-23, -33, -52], [-22, -32, -51], [-35, -45, -64]] 2 2 < 0 ∧
    ¬ ∃ es, IsNegCycle (fwEdges gC6) 2 es := by
  refine ⟨rfl, by decide, ?_⟩
  rintro ⟨es, hne, hwalk, hnd, hneg⟩
  have hmem : ∀ e ∈ es, e ∈ fwEdges gC6 := isWalk_mem hwalk
  have hsrc : ∀ x ∈ wSources es, x < 3 := by
    intro x hx
    obtain ⟨e, he, hxe⟩ := List.mem_map.mp hx
    have hlt : ∀ f ∈ fwEdges gC6, f.source < 3 := by decide
    exact hxe ▸ hlt e (hmem e he)
  have hlen : es.length ≤ 3 := by
    have := nodup_length_le hnd hsrc
    simpa [wSources] using this
  have hmem2 : es ∈ listsUpTo (fwEdges gC6) 3 := mem_listsUpTo hmem hlen
  have hdec : ∀ ls ∈ listsUpTo (fwEdges gC6) 3,
      ¬(ls ≠ [] ∧ isWalkB (fwEdges gC6) 2 2 ls = true ∧
        (wSources ls).Nodup ∧ walkWeight ls < 0) := by decide
  exact hdec es hmem2 ⟨hne, isWalkB_iff.mpr hwalk, hnd, hneg⟩

/-- Claim C7: in every successful single-source run, a node with no path from
the start holds the sentinel (the maximum value of the weight type) in the
returned vector. -/
theorem claim_C7 :
    (∀ (g : BellmanFordAlgorithm) (st : Int) (d : List Int),
      st.toNat < g.total_vertices → g.run (some st) = .ok d →
      ∀ v, ¬ Reaches g.edges st.toNat v → d.getD v intMax = intMax) ∧
    (∀ (g : DijkstraAlgorithm) (start u : Nat) (r : List Nat),
      DOutcome g start r → u < r.length → ¬ Reaches (dEdges g) start u →
      r.getD u 0 = natMax) := by
  constructor
  · intro g st d hs h v hnr
    by_contra hne
    exact hnr (run_ok_reaches hs h v hne)
  · intro g start u r h hu hnr
    exact doutcome_unreach h hu hnr

/-- Witness for C7: node 0 is unreachable from start 3 in `gBFok` and keeps
the `i32::MAX` sentinel; node 2 is unreachable from start 0 in `gDisol` and
keeps the `usize::MAX` sentinel. -/
theorem claim_C7_witness :
    (([2147483647, 2147483647, 2147483647, 0] : List Int).getD 0 intMax =
      intMax) ∧
    (([0, 1, 18446744073709551615] : List Nat).getD 2 0 = natMax) := by
  constructor
  · refine claim_C7.1 gBFok 3 [2147483647, 2147483647, 2147483647, 0]
      (by decide) rfl 0 ?_
    intro hr
    rcases reaches_dest hr with h1 | h2
    · exact absurd h1 (by decide)
    · exact absurd h2 (by decide)
  · refine claim_C7.2 gDisol 0 2 [0, 1, 18446744073709551615]
      ⟨2, rfl, rfl⟩ (by decide) ?_
    intro hr
    rcases reaches_dest hr with h1 | h2
    · exact absurd h1 (by decide)
    · exact absurd h2 (by decide)

/-- Claim C8: `run` does not mutate the engine state (each `run` here is a
pure function of the graph value, and the Dijkstra loop relation is
deterministic), so calling it twice on the unmodified graph with the same
start yields identical results. -/
theorem claim_C8 :
    (∀ (d : DijkstraAlgorithm) (s : Option Nat)
      (res1 res2 : Except GraphError (List Nat)),
      DRun d s res1 → DRun d s res2 → res1 = res2) ∧
    (∀ (b : BellmanFordAlgorithm) (st : Option Int), b.run st = b.run st) ∧
    (∀ (f : FloydWarshallAlgorithm) (st : Option Nat), f.run st = f.run st) := by
  refine ⟨?_, fun _ _ => rfl, fun _ _ => rfl⟩
  intro d s res1 res2 h1 h2
  cases s with
  | none =>
    have h1e : res1 = .error .missingStartNode := h1
    have h2e : res2 = .error .missingStartNode := h2
    rw [h1e, h2e]
  | some st =>
    obtain ⟨r1, hr1, ho1⟩ := h1
    obtain ⟨r2, hr2, ho2⟩ := h2
    rw [hr1, hr2, doutcome_unique ho1 ho2]

/-- Witness for C8: two Dijkstra runs of the spec scenario `gD1` from 0, with
different loop fuels, produce the same result. -/
theorem claim_C8_witness :
    (Except.ok [0, 1, 3] : Except GraphError (List Nat)) = Except.ok [0, 1, 3] :=
  claim_C8.1 gD1 (some 0) _ _ ⟨[0, 1, 3], rfl, 4, rfl, rfl⟩
    ⟨[0, 1, 3], rfl, 7, rfl, rfl⟩

/-- Claim C9: the Dijkstra `run` is total for every graph and every supplied
start node, registered or not: the loop terminates, no access is out of
bounds (map lookups are used for neighbors, and the final conversion guards
every write by the result length), and the result has exactly one slot per
registered node. -/
theorem claim_C9 : ∀ (g : DijkstraAlgorithm) (start : Nat),
    ∃ r, DRun g (some start) (Except.ok r) ∧ r.length = g.graph.length := by
  intro g start
  obtain ⟨r, hout⟩ := dijkstra_terminates g start
  exact ⟨r, ⟨r, rfl, hout⟩, doutcome_length hout⟩

/-- Claim C10: in Floyd-Warshall, parallel `set_edge` calls with the same
source and target resolve to the weight of the LAST call in the initial
matrix (last write wins, not the minimum); concretely, with `0→1` set to 1
and then to 5, `run` reports distance 5. -/
theorem claim_C10 :
    (∀ (g : FloydWarshallAlgorithm) (u v : Nat),
      u < g.total_nodes → v < g.total_nodes →
      mGet (initial g) u v = (lastW g.edges u v).getD intMax) ∧
    FloydWarshallAlgorithm.run gC10 none = .ok [[0, 5], [intMax, 0]] :=
  ⟨fun g _ _ hu hv => initial_lastW g hu hv, rfl⟩

/-- Witness for C10: the parallel-edge graph `gC10`, where the initial entry
`0→1` is the last written weight 5, not the earlier weight 1. -/
theorem claim_C10_witness :
    mGet (initial gC10) 0 1 = (lastW gC10.edges 0 1).getD intMax :=
  claim_C10.1 gC10 0 1 (by decide) (by decide)

end Claims

end GA
